import Mathlib

/-!
Verification of the logkit log-capture engine (package `pkg/logkit`).

The development shallowly embeds the Go sources:
  * a character-level model of the JSON value grammar accepted by
    `encoding/json` (objects, arrays, strings, numbers, booleans, null),
    used by `Tester.entries` (streaming decode with input offsets) and by
    `Matcher.MatchLine` / the legacy `Matcher.match` (whole-input
    unmarshal into a `map[string]any`);
  * the `Tester` capture sink (`tester.go`): `Write`, `entries`,
    `ResetLastMatch`, `WaitFor`, `WaitForAny`, `Reset`.  Blocking waits are
    modelled sequentially: the writes that arrive while a wait is blocked
    are an explicit argument, and channel sends are recorded in a ghost
    delivery log;
  * the current matcher (`MatchLine`, `MatchEntry`, `Notify`/`NotifyStop`)
    and the legacy one-shot matcher (`match`), the latter with an explicit
    store so that `maps.Clone` per checker is a real allocation and checker
    mutation of its argument map is observable.
-/

namespace Logkit

/-- JSON whitespace as accepted between tokens by `encoding/json`
(space, tab, newline, carriage return). -/
def isWs (c : Char) : Bool :=
  c = ' ' || c = '\t' || c = '\n' || c = '\r'

/-- Skip leading JSON whitespace (the decoder does this before a token). -/
def skipWs (s : List Char) : List Char := s.dropWhile isWs

/-- JSON values as decoded by `encoding/json` into `map[string]any`.
Number literals are kept as their source text. -/
inductive JVal : Type where
  | str (s : String)
  | num (lit : String)
  | bool (b : Bool)
  | null
  | arr (elems : List JVal)
  | obj (fields : List (String × JVal))

/-- The decode of one JSON object: Go's `map[string]any`, modelled as an
association list in insertion order. -/
abbrev JMap := List (String × JVal)

/-- Go map assignment `m[k] = v`: replace an existing key, else append. -/
def insertF (m : JMap) (k : String) (v : JVal) : JMap :=
  if m.any (fun kv => kv.1 = k) then
    m.map (fun kv => if kv.1 = k then (k, v) else kv)
  else
    m ++ [(k, v)]

/-- Characters that `encoding/json`'s scanner treats as part of a number
literal once a number has started. -/
def isNumChar (c : Char) : Bool :=
  c.isDigit || c = '-' || c = '+' || c = '.' || c = 'e' || c = 'E'

/-- Scan a JSON string body (after the opening quote) up to the closing
quote; a backslash escapes the character after it (`esc` is set while the
next character is escaped). -/
def pStrAux : List Char → Bool → List Char → Option (String × List Char)
  | [], _, _ => none
  | c :: rest, true, acc => pStrAux rest false (c :: acc)
  | c :: rest, false, acc =>
    if c = '"' then some (String.mk acc.reverse, rest)
    else if c = '\\' then pStrAux rest true acc
    else pStrAux rest false (c :: acc)

/-- Scan a JSON number literal greedily from the start of the input. -/
def pNum (s : List Char) : Option (String × List Char) :=
  let lit := s.takeWhile isNumChar
  let rest := s.dropWhile isNumChar
  match lit with
  | [] => none
  | c :: _ => if c.isDigit || c = '-' then some (String.mk lit, rest) else none

/-- Expect the exact keyword `kw` as a prefix of the input. -/
def pKw (kw : List Char) (s : List Char) : Option (List Char) :=
  if s.take kw.length = kw then some (s.drop kw.length) else none

mutual

/-- Parse one JSON value, skipping leading whitespace
(`json.Decoder.Decode` / the value production of the scanner). -/
def pVal : Nat → List Char → Option (JVal × List Char)
  | 0, _ => none
  | f + 1, s => pDisp f (skipWs s)

/-- Dispatch on the first significant character of a value. -/
def pDisp : Nat → List Char → Option (JVal × List Char)
  | 0, _ => none
  | f + 1, s =>
    match s with
    | [] => none
    | c :: cs =>
      if c = '{' then pFields f cs true []
      else if c = '[' then pElems f cs true []
      else if c = '"' then
        match pStrAux cs false [] with
        | some (str, r) => some (JVal.str str, r)
        | none => none
      else if c = 't' then
        match pKw ['t', 'r', 'u', 'e'] s with
        | some r => some (JVal.bool true, r)
        | none => none
      else if c = 'f' then
        match pKw ['f', 'a', 'l', 's', 'e'] s with
        | some r => some (JVal.bool false, r)
        | none => none
      else if c = 'n' then
        match pKw ['n', 'u', 'l', 'l'] s with
        | some r => some (JVal.null, r)
        | none => none
      else if c.isDigit || c = '-' then
        match pNum s with
        | some (lit, r) => some (JVal.num lit, r)
        | none => none
      else none

/-- Parse object members after `{` (or after a `,`); `first` is true only
before the first member, where `}` closes an empty object. -/
def pFields : Nat → List Char → Bool → JMap → Option (JVal × List Char)
  | 0, _, _, _ => none
  | f + 1, s, first, acc =>
    match skipWs s with
    | [] => none
    | c :: cs =>
      if c = '}' then if first then some (JVal.obj acc, cs) else none
      else if c = '"' then
        match pStrAux cs false [] with
        | none => none
        | some (key, r1) =>
          match skipWs r1 with
          | ':' :: r2 =>
            match pVal f r2 with
            | none => none
            | some (v, r3) =>
              match skipWs r3 with
              | ',' :: r5 => pFields f r5 false (insertF acc key v)
              | '}' :: r5 => some (JVal.obj (insertF acc key v), r5)
              | _ => none
          | _ => none
      else none

/-- Parse array elements after `[` (or after a `,`); `first` is true only
before the first element, where `]` closes an empty array. -/
def pElems : Nat → List Char → Bool → List JVal → Option (JVal × List Char)
  | 0, _, _, _ => none
  | f + 1, s, first, acc =>
    match skipWs s with
    | [] => none
    | c :: cs =>
      if c = ']' then if first then some (JVal.arr acc, cs) else none
      else
        match pVal f s with
        | none => none
        | some (v, r1) =>
          match skipWs r1 with
          | ',' :: r2 => pElems f r2 false (acc ++ [v])
          | ']' :: r2 => some (JVal.arr (acc ++ [v]), r2)
          | _ => none

end

/-- `bytes.TrimSpace`: drop whitespace from both ends. -/
def trimB (s : List Char) : List Char :=
  ((s.dropWhile isWs).reverse.dropWhile isWs).reverse

/-- `json.Unmarshal(line, &dst)` with `dst` a `map[string]any`: the whole
input must be one JSON value followed only by whitespace; a JSON object
fills the map, a JSON null zeroes it (leaving the decode empty), any other
value is an unmarshal type error. -/
def unmarshalMap (s : List Char) : Option JMap :=
  match pVal (2 * s.length + 8) s with
  | some (JVal.obj fields, r) => if (skipWs r).isEmpty then some fields else none
  | some (JVal.null, r) => if (skipWs r).isEmpty then some [] else none
  | _ => none

/-- A write that is a single valid JSON log line: one JSON object with
nothing but whitespace around it. -/
def lineDecode (s : List Char) : Option JMap :=
  match pVal (2 * s.length + 8) s with
  | some (JVal.obj fields, r) => if (skipWs r).isEmpty then some fields else none
  | _ => none

/-- `ValidLine s` holds when `s` is a single valid JSON log line. -/
def ValidLine (s : List Char) : Prop := (lineDecode s).isSome

instance : DecidablePred ValidLine := fun s => by
  unfold ValidLine; infer_instance

/-- `Config` of `config.go`: log message field names and formats. -/
structure Config : Type where
  TimeField : String
  LevelField : String
  MessageField : String
  ErrorField : String
  LevelTraceValue : String
  LevelDebugValue : String
  LevelInfoValue : String
  LevelWarnValue : String
  LevelErrorValue : String
  LevelFatalValue : String
  LevelPanicValue : String
  TimeFormat : String
  DurationUnit : Nat
deriving DecidableEq

/-- `DefaultConfig`: the `zerolog` defaults (`time.RFC3339`; the duration
unit is a millisecond in nanoseconds). -/
def DefaultConfig : Config :=
  { TimeField := "time"
    LevelField := "level"
    MessageField := "message"
    ErrorField := "error"
    LevelTraceValue := "trace"
    LevelDebugValue := "debug"
    LevelInfoValue := "info"
    LevelWarnValue := "warn"
    LevelErrorValue := "error"
    LevelFatalValue := "fatal"
    LevelPanicValue := "panic"
    TimeFormat := "2006-01-02T15:04:05Z07:00"
    DurationUnit := 1000000 }

/-- Field-checking error kinds of `check.go` (`ErrMissing`, `ErrType`,
`ErrFormat`, `ErrValue`). -/
inductive Err : Type where
  | missing
  | typ
  | format
  | value
deriving DecidableEq

/-- One parsed log entry (`Entry` of `entry.go`); the `cfg` and `t`
references are dropped (external collaborators). -/
structure Entry : Type where
  raw : List Char := []
  m : JMap := []
  idx : Nat := 0

/-- `Entry.IsZero`: the zero entry is recognised by its empty raw text. -/
def Entry.IsZero (ent : Entry) : Bool := ent.raw.isEmpty

/-- Modelled from the spec: `ZeroEntry` is not in the sources (only its
callers in `tester.go` and `MatchLine` are); per the spec, "a zero-value
Entry (`raw == \x22\x22`) is the canonical not-found sentinel", so it is the
entry with empty raw text, empty field map and index 0. -/
def ZeroEntry : Entry := {}

/-- A `Checker` as used by the current matcher and the sink: a pure
predicate on entries (`func(Entry) error`). -/
abbrev Chk := Entry → Option Err

/-- `CheckStr field want` (`check.go`): the field must exist, be a string
and equal `want`. -/
def CheckStr (field want : String) : Chk := fun ent =>
  match (ent.m.filter (fun kv => kv.1 = field)).head? with
  | none => some Err.missing
  | some (_, JVal.str s) => if s = want then none else some Err.value
  | some _ => some Err.typ

/-- Reports sent to the failure reporter (`tester.T`'s `Error`),
abstracted from their text. -/
inductive Report : Type where
  | decodeError
  | matcherLineError (idx : Nat)
  | durationError (timeout : String)
  | timeoutReached (timeout : String)
  | summary (raws : List (List Char))
  | notFound

/-- The current matcher (`Matcher` defined alongside `MatchLine`,
`MatchEntry`, `Notify`, `NotifyStop`): checks, a match counter, whether the
notify channel is non-nil, plus a ghost identity used to attribute channel
deliveries. -/
structure Mcr : Type where
  checks : List Chk
  cnt : Nat := 0
  notify : Bool := false
  id : Nat := 0

/-- `NewMatcher t cfg checks...`: counter zero, no notify channel. -/
def newMcr (checks : List Chk) (id : Nat) : Mcr :=
  { checks := checks, id := id }

/-- `Matcher.MatchEntry`: run all checks on the entry; on success, send to
the notify channel if registered, bump the counter and report true.  The
first component is the returned boolean, the third whether a channel send
happened. -/
def Mcr.MatchEntry (mcr : Mcr) (ent : Entry) : Bool × Mcr × Bool :=
  if mcr.checks.all (fun chk => (chk ent).isNone) then
    (true, { mcr with cnt := mcr.cnt + 1 }, mcr.notify)
  else
    (false, mcr, false)

/-- `Matcher.MatchLine`: trim the line, unmarshal it into a map, build the
entry and run all checks; on success send to the notify channel (if
registered), bump the counter and return the entry, otherwise return the
zero entry.  Components: returned entry, updated matcher, whether a send
happened, error reports. -/
def Mcr.MatchLine (mcr : Mcr) (idx : Nat) (line : List Char) :
    Entry × Mcr × Bool × List Report :=
  match unmarshalMap (trimB line) with
  | none => (ZeroEntry, mcr, false, [Report.matcherLineError idx])
  | some dst =>
    if mcr.checks.all
        (fun chk => (chk { raw := trimB line, m := dst, idx := idx }).isNone) then
      ({ raw := trimB line, m := dst, idx := idx },
        { mcr with cnt := mcr.cnt + 1 }, mcr.notify, [])
    else
      (ZeroEntry, mcr, false, [])

/-- `Matcher.NotifyStop`: close and clear the notify channel. -/
def Mcr.NotifyStop (mcr : Mcr) : Mcr := { mcr with notify := false }

/-- The capture sink (`Tester` of `tester.go`).  `reports` is the ghost log
of calls to the failure reporter, `deliveries` the ghost log of entries
sent over a matcher's notify channel (tagged by matcher identity), and
`nextId` the ghost supply of fresh matcher identities. -/
structure Tester : Type where
  cfg : Config := DefaultConfig
  buf : List Char := []
  cnt : Nat := 0
  matchers : List Mcr := []
  matchIdx : Int := -1
  reports : List Report := []
  deliveries : List (Nat × Entry) := []
  evals : List Nat := []
  nextId : Nat := 0

/-- `New(t)` with no options: empty buffer, no writes, cursor unset. -/
def newTester : Tester := {}

/-- `Tester.Write`: append the line to the buffer, count it, and evaluate
only the head of the matcher queue against it; on a successful match pop
the head and set the cursor to this write's index.  The ghost `evals` log
records the identity of the matcher evaluated by this write. -/
def Tester.Write (tst : Tester) (p : List Char) : Tester :=
  let tst := { tst with cnt := tst.cnt + 1, buf := tst.buf ++ p }
  match tst.matchers with
  | [] => tst
  | m :: rest =>
    match m.MatchLine (tst.cnt - 1) p with
    | (ent, m', sent, reps) =>
      if ent.IsZero then
        { tst with
          matchers := m' :: rest
          reports := tst.reports ++ reps
          evals := tst.evals ++ [m.id] }
      else
        { tst with
          matchIdx := (tst.cnt : Int) - 1
          matchers := rest
          reports := tst.reports ++ reps
          deliveries :=
            tst.deliveries ++ if sent then [(m'.id, ent)] else []
          evals := tst.evals ++ [m.id] }

/-- A sequence of writes arriving at the sink in order. -/
def Tester.processWrites (tst : Tester) (ps : List (List Char)) : Tester :=
  ps.foldl Tester.Write tst

/-- `Tester.ResetLastMatch`: reset the cursor to -1. -/
def Tester.ResetLastMatch (tst : Tester) : Tester :=
  { tst with matchIdx := -1 }

/-- `Tester.Reset`: zero the write counter, empty the buffer and empty the
matcher queue. -/
def Tester.Reset (tst : Tester) : Tester :=
  { tst with cnt := 0, buf := [], matchers := [] }

/-- One iteration step of `Tester.entries`: `dec.More()` skips whitespace
and stops at end of input or at a closing bracket; `dec.Decode(&m)` parses
one value and unmarshals it into a map; the raw text of the entry is the
trimmed segment between the previous and the new input offset.  The boolean
is true when decoding failed and the test was marked failed (the source
then discards everything and returns an empty collection). -/
def entriesLoop : Nat → List Char → Nat → List Entry → List Entry × Bool
  | 0, _, _, _ => ([], true)
  | f + 1, rest, idx, acc =>
    match skipWs rest with
    | [] => (acc, false)
    | c :: _ =>
      if c = '}' || c = ']' then (acc, false)
      else
        match pVal (2 * rest.length + 8) rest with
        | none => ([], true)
        | some (v, r) =>
          match v with
          | JVal.obj fields =>
            let consumed := rest.take (rest.length - r.length)
            entriesLoop f r (idx + 1)
              (acc ++ [{ raw := trimB consumed, m := fields, idx := idx }])
          | JVal.null =>
            let consumed := rest.take (rest.length - r.length)
            entriesLoop f r (idx + 1)
              (acc ++ [{ raw := trimB consumed, m := [], idx := idx }])
          | _ => ([], true)

/-- `Tester.entries`: stream-decode the whole buffer; on any decode error
report it and return the empty collection. -/
def Tester.entriesE (tst : Tester) : List Entry × Bool :=
  entriesLoop (tst.buf.length + 1) tst.buf 0 []

/-- `Tester.Entries().Get()` as seen by callers, plus the error report it
leaves behind. -/
def Tester.entriesList (tst : Tester) : List Entry := (tst.entriesE).1

/-- The replay phase of `WaitFor`: scan already-captured entries, skipping
indices at or below the cursor, and return the first one passing all
checks (with its position). -/
def replayFind (checks : List Chk) (matchIdx : Int) :
    List Entry → Nat → Option (Nat × Entry)
  | [], _ => none
  | ent :: rest, i =>
    if (i : Int) ≤ matchIdx then replayFind checks matchIdx rest (i + 1)
    else if checks.all (fun chk => (chk ent).isNone) then some (i, ent)
    else replayFind checks matchIdx rest (i + 1)

/-- `time.ParseDuration` restricted to the shapes used here: a positive
integer followed by one unit suffix. -/
def ParseDuration (s : String) : Option Nat :=
  let ds := s.data.takeWhile Char.isDigit
  let rest := s.data.dropWhile Char.isDigit
  if ds.isEmpty then none
  else
    let n := ds.foldl (fun k c => k * 10 + (c.toNat - ('0').toNat)) 0
    if rest = ['n', 's'] then some n
    else if rest = ['u', 's'] then some (n * 1000)
    else if rest = ['m', 's'] then some (n * 1000000)
    else if rest = ['s'] then some (n * 1000000000)
    else if rest = ['m'] then some (n * 60000000000)
    else if rest = ['h'] then some (n * 3600000000000)
    else none

/-- First ghost delivery recorded for the matcher identity `id`. -/
def firstDelivery (id : Nat) (ds : List (Nat × Entry)) : Option Entry :=
  match ds.filter (fun d => d.1 = id) with
  | [] => none
  | d :: _ => some d.2

/-- Deactivate the notify channel of the queued matcher with identity `id`
(the timed-out matcher stays in the queue; only its channel is cleared). -/
def stopQueued (id : Nat) (ms : List Mcr) : List Mcr :=
  ms.map (fun m => if m.id = id then m.NotifyStop else m)

/-- `Tester.WaitFor(timeout, checks...)`, sequentially: parse the timeout;
replay over captured entries above the cursor; otherwise register a
matcher with a notify channel at the tail of the queue and block.  The
writes arriving while blocked are the explicit `future` list; the wait
returns the first entry delivered to its matcher, or — when none arrives —
takes the timeout branch: stop the notify channel, report the timeout and
a summary of everything captured, and return the zero entry. -/
def Tester.WaitFor (tst : Tester) (timeout : String) (checks : List Chk)
    (future : List (List Char)) : Entry × Tester :=
  match ParseDuration timeout with
  | none =>
    (ZeroEntry,
      { tst with reports := tst.reports ++ [Report.durationError timeout] })
  | some _ =>
    let mcr := newMcr checks tst.nextId
    let tst := { tst with nextId := tst.nextId + 1 }
    match replayFind checks tst.matchIdx tst.entriesList 0 with
    | some (i, ent) => (ent, { tst with matchIdx := (i : Int) })
    | none =>
      let mcr := { mcr with notify := true }
      let tst1 := { tst with matchers := tst.matchers ++ [mcr] }
      let tst2 := tst1.processWrites future
      match firstDelivery mcr.id tst2.deliveries with
      | some ent => (ent, tst2)
      | none =>
        let tst3 := { tst2 with matchers := stopQueued mcr.id tst2.matchers }
        (ZeroEntry,
          { tst3 with
            reports := tst3.reports ++
              [Report.timeoutReached timeout,
               Report.summary (tst3.entriesList.map Entry.raw)] })

/-- `Tester.WaitForAny`: like `WaitFor` but reset the last match before
returning. -/
def Tester.WaitForAny (tst : Tester) (timeout : String) (checks : List Chk)
    (future : List (List Char)) : Entry × Tester :=
  let r := tst.WaitFor timeout checks future
  (r.1, r.2.ResetLastMatch)

/-! ### The legacy one-shot matcher (`matcher.go`)

Go maps are references: a checker receiving an `Entry` can mutate the map
behind `Entry.m` in place.  To make `maps.Clone` meaningful the check loop
runs over an explicit store of map cells; a checker is a decision function
plus the in-place update it performs on the map cell it is handed. -/

/-- A store of `map[string]any` cells; references are indices. -/
structure Store : Type where
  cells : List JMap

/-- Allocate a fresh map cell (`make`, `maps.Clone`). -/
def Store.alloc (h : Store) (m : JMap) : Store × Nat :=
  ({ cells := h.cells ++ [m] }, h.cells.length)

/-- Read a map cell. -/
def Store.read (h : Store) (r : Nat) : JMap := (h.cells.get? r).getD []

/-- Overwrite a map cell (in-place mutation of a Go map). -/
def Store.write (h : Store) (r : Nat) (m : JMap) : Store :=
  { cells := h.cells.set r m }

/-- A checker as handed to the legacy matcher: a Go `func(Entry) error`
that returns a verdict and may mutate the map behind its argument. -/
structure OChk : Type where
  decide : Entry → Option Err
  mutate : JMap → JMap

/-- The legacy `Matcher` (`matcher.go`): checks, whether the done channel
is still open (armed), and the first captured entry. -/
structure MatcherLegacy : Type where
  checks : List OChk
  done : Bool := true
  ent : Entry := {}

/-- The check loop of the legacy `Matcher.match`: each iteration clones
the decoded map `dst` into a fresh cell, hands that cell to the checker
(which may mutate it), and stops at the first failing checker.  The ghost
third component lists the map values the checkers actually saw. -/
def runChecks (raw : List Char) (idx : Nat) (dstRef : Nat) :
    List OChk → Store → Bool × Store × List JMap
  | [], h => (true, h, [])
  | chk :: rest, h =>
    let a := h.alloc (h.read dstRef)
    let argVal := a.1.read a.2
    match chk.decide { raw := raw, m := argVal, idx := idx } with
    | some _ => (false, a.1, [argVal])
    | none =>
      let h2 := a.1.write a.2 (chk.mutate argVal)
      let rec' := runChecks raw idx dstRef rest h2
      (rec'.1, rec'.2.1, argVal :: rec'.2.2)

/-- The legacy `Matcher.match(idx, line)` (the spec's `tryMatch`): trim and
unmarshal the line (reporting a decode failure), allocate the decoded map,
run every check on a fresh clone of it, and on success — while still armed
— record the first entry (whose map is the original `dst` cell, left zero
when there are no checks, exactly as the source's `first` variable) and
close the done channel; a later success returns true without touching the
captured entry. -/
def MatcherLegacy.tryMatch (mcr : MatcherLegacy) (idx : Nat)
    (line : List Char) : Bool × MatcherLegacy × List Report :=
  match unmarshalMap (trimB line) with
  | none => (false, mcr, [Report.matcherLineError idx])
  | some dst =>
    let a := Store.alloc { cells := [] } dst
    let r := runChecks (trimB line) idx a.2 mcr.checks a.1
    if r.1 then
      let first : Entry :=
        if mcr.checks.isEmpty then {}
        else { raw := trimB line, m := r.2.1.read a.2, idx := idx }
      if mcr.done then (true, { mcr with ent := first, done := false }, [])
      else (true, mcr, [])
    else (false, mcr, [])

/-- The ghost trace of map values seen by the checkers during
`tryMatch` (empty when the line does not unmarshal). -/
def MatcherLegacy.tryMatchArgs (mcr : MatcherLegacy) (idx : Nat)
    (line : List Char) : List JMap :=
  match unmarshalMap (trimB line) with
  | none => []
  | some dst =>
    let a := Store.alloc { cells := [] } dst
    (runChecks (trimB line) idx a.2 mcr.checks a.1).2.2

/-! ### List and trimming helper lemmas -/

theorem dropWhile_append_cons {α : Type} {p : α → Bool} {a : List α} {c : α}
    {cs : List α} (h : a.dropWhile p = c :: cs) (b : List α) :
    (a ++ b).dropWhile p = c :: (cs ++ b) := by
  induction a with
  | nil => simp at h
  | cons x xs ih =>
    by_cases hx : p x
    · simp only [List.dropWhile_cons, hx, if_true] at h
      simpa [List.dropWhile_cons, hx] using ih h
    · simp only [List.dropWhile_cons, hx, if_false] at h
      cases h
      simp [List.dropWhile_cons, hx]

theorem dropWhile_append_nil {α : Type} {p : α → Bool} {a : List α}
    (h : a.dropWhile p = []) (b : List α) :
    (a ++ b).dropWhile p = b.dropWhile p := by
  induction a with
  | nil => simp
  | cons x xs ih =>
    by_cases hx : p x
    · simp only [List.dropWhile_cons, hx, if_true] at h
      simpa [List.dropWhile_cons, hx] using ih h
    · simp [List.dropWhile_cons, hx] at h

theorem dropWhile_all_nil {α : Type} {p : α → Bool} {a : List α}
    (h : ∀ c ∈ a, p c) : a.dropWhile p = [] :=
  List.dropWhile_eq_nil_iff.mpr h

theorem all_of_dropWhile_nil {α : Type} {p : α → Bool} {a : List α}
    (h : a.dropWhile p = []) : ∀ c ∈ a, p c :=
  List.dropWhile_eq_nil_iff.mp h

theorem dropWhile_decomp {α : Type} (p : α → Bool) (s : List α) :
    ∃ u, s = u ++ s.dropWhile p ∧ ∀ c ∈ u, p c :=
  ⟨s.takeWhile p, (List.takeWhile_append_dropWhile p s).symm,
    fun _ hc => List.mem_takeWhile_imp hc⟩

theorem skipWs_ws_chunk {pre : List Char} (h : ∀ c ∈ pre, isWs c)
    (s : List Char) : skipWs (pre ++ s) = skipWs s :=
  dropWhile_append_nil (dropWhile_all_nil h) s

theorem trimB_ws_chunk {pre : List Char} (h : ∀ c ∈ pre, isWs c)
    (s : List Char) : trimB (pre ++ s) = trimB s := by
  unfold trimB
  rw [dropWhile_append_nil (dropWhile_all_nil h) s]

theorem trimB_ws_suffix {suf : List Char} (h : ∀ c ∈ suf, isWs c)
    (s : List Char) : trimB (s ++ suf) = trimB s := by
  unfold trimB
  have hrevsuf : ∀ x ∈ suf.reverse, isWs x := by
    intro x hx
    exact h x (List.mem_reverse.mp hx)
  cases hs : s.dropWhile isWs with
  | nil =>
    rw [dropWhile_append_nil hs suf, dropWhile_all_nil h]
  | cons c cs =>
    rw [dropWhile_append_cons hs suf]
    have hrev : (c :: (cs ++ suf)).reverse = suf.reverse ++ (c :: cs).reverse := by
      simp
    rw [hrev, dropWhile_append_nil (dropWhile_all_nil hrevsuf) (c :: cs).reverse]

/-! ### Basic parser lemmas: prefix consumption and append invariance -/

theorem takeWhile_append_of_drop_cons {α : Type} {p : α → Bool} {a : List α}
    {c : α} {cs : List α} (h : a.dropWhile p = c :: cs) (b : List α) :
    (a ++ b).takeWhile p = a.takeWhile p := by
  induction a with
  | nil => simp at h
  | cons x xs ih =>
    by_cases hx : p x
    · simp only [List.dropWhile_cons, hx, if_true] at h
      simp [List.takeWhile_cons, hx, ih h]
    · simp [List.takeWhile_cons, hx]

theorem pStrAux_spec : ∀ (s : List Char) (esc : Bool) (acc : List Char)
    (str : String) (r : List Char), pStrAux s esc acc = some (str, r) →
    (∃ u, s = u ++ r) ∧ ∀ t, pStrAux (s ++ t) esc acc = some (str, r ++ t) := by
  intro s
  induction s with
  | nil => intro esc acc str r h; simp [pStrAux] at h
  | cons c cs ih =>
    intro esc acc str r h
    cases esc with
    | true =>
      have h' : pStrAux cs false (c :: acc) = some (str, r) := h
      obtain ⟨⟨u, hu⟩, happ⟩ := ih false (c :: acc) str r h'
      exact ⟨⟨c :: u, by simp [hu]⟩, fun t => happ t⟩
    | false =>
      by_cases h1 : c = '"'
      · subst h1
        simp only [pStrAux, if_pos rfl] at h
        obtain ⟨hstr, hr⟩ := Prod.mk.injEq .. ▸ Option.some.injEq .. ▸ h
        subst hr
        refine ⟨⟨['"'], rfl⟩, fun t => ?_⟩
        simp [pStrAux, hstr]
      · by_cases h2 : c = '\\'
        · subst h2
          simp only [pStrAux, if_neg h1, if_pos rfl] at h
          obtain ⟨⟨u, hu⟩, happ⟩ := ih true acc str r h
          refine ⟨⟨'\\' :: u, by simp [hu]⟩, fun t => ?_⟩
          simpa [pStrAux, h1] using happ t
        · simp only [pStrAux, if_neg h1, if_neg h2] at h
          obtain ⟨⟨u, hu⟩, happ⟩ := ih false (c :: acc) str r h
          refine ⟨⟨c :: u, by simp [hu]⟩, fun t => ?_⟩
          simpa [pStrAux, h1, h2] using happ t

theorem pNum_spec {s : List Char} {lit : String} {r : List Char}
    (h : pNum s = some (lit, r)) :
    (∃ u, s = u ++ r) ∧ (r ≠ [] → ∀ t, pNum (s ++ t) = some (lit, r ++ t)) := by
  unfold pNum at h
  constructor
  · cases htw : s.takeWhile isNumChar with
    | nil => simp [htw] at h
    | cons c cs =>
      simp only [htw] at h
      by_cases hc : c.isDigit || c = '-'
      · simp only [hc, if_true, Option.some.injEq, Prod.mk.injEq] at h
        exact ⟨s.takeWhile isNumChar, by rw [h.2.symm]; exact
          (List.takeWhile_append_dropWhile isNumChar s).symm⟩
      · simp [hc] at h
  · intro hr t
    have hdrop : s.dropWhile isNumChar = r := by
      cases htw : s.takeWhile isNumChar with
      | nil => simp [htw] at h
      | cons c cs =>
        simp only [htw] at h
        by_cases hc : c.isDigit || c = '-'
        · simp only [hc, if_true, Option.some.injEq, Prod.mk.injEq] at h
          exact h.2
        · simp [hc] at h
    cases hr' : r with
    | nil => exact absurd hr' hr
    | cons c0 cs0 =>
      rw [hr'] at hdrop
      unfold pNum
      rw [takeWhile_append_of_drop_cons hdrop t, dropWhile_append_cons hdrop t]
      cases htw : s.takeWhile isNumChar with
      | nil => simp [htw] at h
      | cons c cs =>
        simp only [htw] at h ⊢
        by_cases hc : c.isDigit || c = '-'
        · simp only [hc, if_true, Option.some.injEq, Prod.mk.injEq] at h ⊢
          rw [hdrop] at h
          exact ⟨h.1, by simp⟩
        · simp [hc] at h

theorem pKw_spec {kw s r : List Char} (h : pKw kw s = some r) :
    s = kw ++ r ∧ ∀ t, pKw kw (s ++ t) = some (r ++ t) := by
  unfold pKw at h
  by_cases hc : s.take kw.length = kw
  · simp only [hc, if_true, Option.some.injEq] at h
    subst h
    have hs : s = kw ++ s.drop kw.length := by
      conv_lhs => rw [← List.take_append_drop kw.length s]
      rw [hc]
    refine ⟨hs, fun t => ?_⟩
    have h1 : (s ++ t).take kw.length = kw := by
      conv_lhs => rw [hs, List.append_assoc]
      exact List.take_left' rfl
    have h2 : (s ++ t).drop kw.length = s.drop kw.length ++ t := by
      conv_lhs => rw [hs, List.append_assoc]
      exact List.drop_left' rfl
    unfold pKw
    rw [h1, h2, if_pos rfl]
  · simp [hc] at h

theorem pVal_nil {f : Nat} : pVal f [] = none := by
  cases f with
  | zero => rfl
  | succ f => cases f <;> rfl

theorem pFields_obj : ∀ (f : Nat) (s : List Char) (fi : Bool) (acc : JMap)
    (v : JVal) (r : List Char), pFields f s fi acc = some (v, r) →
    ∃ flds, v = JVal.obj flds := by
  intro f
  induction f with
  | zero => intro s fi acc v r h; simp [pFields] at h
  | succ f ih =>
    intro s fi acc v r h
    simp only [pFields] at h
    repeat' split at h
    all_goals first
      | exact ih _ _ _ _ _ h
      | (simp only [Option.some.injEq, Prod.mk.injEq] at h; exact ⟨_, h.1.symm⟩)
      | simp_all

theorem pElems_arr : ∀ (f : Nat) (s : List Char) (fi : Bool)
    (acc : List JVal) (v : JVal) (r : List Char),
    pElems f s fi acc = some (v, r) → ∃ xs, v = JVal.arr xs := by
  intro f
  induction f with
  | zero => intro s fi acc v r h; simp [pElems] at h
  | succ f ih =>
    intro s fi acc v r h
    simp only [pElems] at h
    repeat' split at h
    all_goals first
      | exact ih _ _ _ _ _ h
      | (simp only [Option.some.injEq, Prod.mk.injEq] at h; exact ⟨_, h.1.symm⟩)
      | simp_all

theorem pDisp_obj {f : Nat} {s : List Char} {flds : JMap} {r : List Char}
    (h : pDisp f s = some (JVal.obj flds, r)) :
    ∃ cs, s = '{' :: cs := by
  cases f with
  | zero => simp [pDisp] at h
  | succ f =>
    simp only [pDisp] at h
    cases s with
    | nil => simp at h
    | cons c cs =>
      by_cases hc : c = '{'
      · exact ⟨cs, by rw [hc]⟩
      · exfalso
        simp only [hc, if_false] at h
        repeat' split at h
        all_goals first
          | (obtain ⟨xs, hxs⟩ := pElems_arr _ _ _ _ _ _ h; simp at hxs)
          | simp_all

/-- Values whose parse is stable under appending further input at the
point where it stopped: a number literal is greedy, so it additionally
needs a following character in the remainder. -/
def TailOk : JVal → List Char → Prop
  | JVal.num _, r => r ≠ []
  | _, _ => True

theorem tailOk_of_ne_nil {v : JVal} {r : List Char} (h : r ≠ []) :
    TailOk v r := by
  cases v <;> simp [TailOk, h]

theorem pDisp_nil {f : Nat} : pDisp f [] = none := by
  cases f <;> rfl

theorem skipWs_ne_nil_of_cons {s : List Char} {c : Char} {cs : List Char}
    (h : skipWs s = c :: cs) : s ≠ [] := by
  intro h0
  rw [h0] at h
  simp [skipWs] at h

/-- Combined suffix-consumption, fuel-monotonicity and append-invariance
for the four mutually recursive parsing functions. -/
theorem pAll : ∀ f : Nat,
    (∀ s v r, pVal f s = some (v, r) →
      (∃ u, s = u ++ r) ∧
      ∀ f' t, f ≤ f' → TailOk v r → pVal f' (s ++ t) = some (v, r ++ t)) ∧
    (∀ s v r, pDisp f s = some (v, r) →
      (∃ u, s = u ++ r) ∧
      ∀ f' t, f ≤ f' → TailOk v r → pDisp f' (s ++ t) = some (v, r ++ t)) ∧
    (∀ s fi acc v r, pFields f s fi acc = some (v, r) →
      (∃ u, s = u ++ r) ∧
      ∀ f' t, f ≤ f' → pFields f' (s ++ t) fi acc = some (v, r ++ t)) ∧
    (∀ s fi acc v r, pElems f s fi acc = some (v, r) →
      (∃ u, s = u ++ r) ∧
      ∀ f' t, f ≤ f' → pElems f' (s ++ t) fi acc = some (v, r ++ t)) := by
  intro f
  induction f with
  | zero =>
    refine ⟨?_, ?_, ?_, ?_⟩
    · intro s v r h; simp [pVal] at h
    · intro s v r h; simp [pDisp] at h
    · intro s fi acc v r h; simp [pFields] at h
    · intro s fi acc v r h; simp [pElems] at h
  | succ f ih =>
    obtain ⟨ihV, ihD, ihF, ihE⟩ := ih
    refine ⟨?_, ?_, ?_, ?_⟩
    · -- pVal
      intro s v r h
      have hd : pDisp f (skipWs s) = some (v, r) := h
      obtain ⟨⟨u1, hu1⟩, happD⟩ := ihD (skipWs s) v r hd
      obtain ⟨u0, hu0, -⟩ := dropWhile_decomp isWs s
      have hdec : s = u0 ++ skipWs s := hu0
      refine ⟨⟨u0 ++ u1, by rw [hdec, hu1]; simp⟩, ?_⟩
      intro f' t hf htail
      obtain ⟨f'', rfl⟩ : ∃ f'', f' = f'' + 1 := ⟨f' - 1, by omega⟩
      cases hsk : skipWs s with
      | nil => rw [hsk, pDisp_nil] at hd; exact absurd hd (by simp)
      | cons c cs =>
        have hsk' : skipWs (s ++ t) = c :: (cs ++ t) := dropWhile_append_cons hsk t
        show pDisp f'' (skipWs (s ++ t)) = some (v, r ++ t)
        rw [hsk']
        have h2 := happD f'' t (by omega) htail
        rw [hsk] at h2
        simpa using h2
    · -- pDisp
      intro s v r h
      cases s with
      | nil => rw [pDisp_nil] at h; exact absurd h (by simp)
      | cons c cs =>
        by_cases hc1 : c = '{'
        · subst hc1
          have hf : pFields f cs true [] = some (v, r) := by simpa [pDisp] using h
          obtain ⟨⟨u, hu⟩, happ⟩ := ihF cs true [] v r hf
          refine ⟨⟨'{' :: u, by simp [hu]⟩, ?_⟩
          intro f' t hf' htail
          obtain ⟨f'', rfl⟩ : ∃ f'', f' = f'' + 1 := ⟨f' - 1, by omega⟩
          have h2 := happ f'' t (by omega)
          simpa [pDisp] using h2
        · by_cases hc2 : c = '['
          · subst hc2
            have he : pElems f cs true [] = some (v, r) := by
              simpa [pDisp, hc1] using h
            obtain ⟨⟨u, hu⟩, happ⟩ := ihE cs true [] v r he
            refine ⟨⟨'[' :: u, by simp [hu]⟩, ?_⟩
            intro f' t hf' htail
            obtain ⟨f'', rfl⟩ : ∃ f'', f' = f'' + 1 := ⟨f' - 1, by omega⟩
            have h2 := happ f'' t (by omega)
            simpa [pDisp, hc1] using h2
          · by_cases hc3 : c = '"'
            · subst hc3
              have hms : (match pStrAux cs false [] with
                  | some (str, r) => some (JVal.str str, r)
                  | none => none) = some (v, r) := by
                simpa [pDisp, hc1, hc2] using h
              cases hps : pStrAux cs false [] with
              | none => rw [hps] at hms; exact absurd hms (by simp)
              | some pr =>
                obtain ⟨str, r1⟩ := pr
                rw [hps] at hms
                simp only [Option.some.injEq, Prod.mk.injEq] at hms
                obtain ⟨hv, hr⟩ := hms
                subst hv; subst hr
                obtain ⟨⟨u, hu⟩, happ⟩ := pStrAux_spec cs false [] str r1 hps
                refine ⟨⟨'"' :: u, by simp [hu]⟩, ?_⟩
                intro f' t hf' htail
                obtain ⟨f'', rfl⟩ : ∃ f'', f' = f'' + 1 := ⟨f' - 1, by omega⟩
                have h2 := happ t
                simp [pDisp, hc1, hc2, h2]
            · by_cases hc4 : c = 't'
              · subst hc4
                have hms : (match pKw ['t', 'r', 'u', 'e'] ('t' :: cs) with
                    | some r => some (JVal.bool true, r)
                    | none => none) = some (v, r) := by
                  simpa [pDisp, hc1, hc2, hc3] using h
                cases hkw : pKw ['t', 'r', 'u', 'e'] ('t' :: cs) with
                | none => rw [hkw] at hms; exact absurd hms (by simp)
                | some r1 =>
                  rw [hkw] at hms
                  simp only [Option.some.injEq, Prod.mk.injEq] at hms
                  obtain ⟨hv, hr⟩ := hms
                  subst hv; subst hr
                  obtain ⟨hu, happ⟩ := pKw_spec hkw
                  refine ⟨⟨['t', 'r', 'u', 'e'], by simpa using hu⟩, ?_⟩
                  intro f' t hf' htail
                  obtain ⟨f'', rfl⟩ : ∃ f'', f' = f'' + 1 := ⟨f' - 1, by omega⟩
                  have h2 := happ t
                  simp only [List.cons_append] at h2 ⊢
                  simp [pDisp, hc1, hc2, hc3, h2]
              · by_cases hc5 : c = 'f'
                · subst hc5
                  have hms : (match pKw ['f', 'a', 'l', 's', 'e'] ('f' :: cs) with
                      | some r => some (JVal.bool false, r)
                      | none => none) = some (v, r) := by
                    simpa [pDisp, hc1, hc2, hc3, hc4] using h
                  cases hkw : pKw ['f', 'a', 'l', 's', 'e'] ('f' :: cs) with
                  | none => rw [hkw] at hms; exact absurd hms (by simp)
                  | some r1 =>
                    rw [hkw] at hms
                    simp only [Option.some.injEq, Prod.mk.injEq] at hms
                    obtain ⟨hv, hr⟩ := hms
                    subst hv; subst hr
                    obtain ⟨hu, happ⟩ := pKw_spec hkw
                    refine ⟨⟨['f', 'a', 'l', 's', 'e'], by simpa using hu⟩, ?_⟩
                    intro f' t hf' htail
                    obtain ⟨f'', rfl⟩ : ∃ f'', f' = f'' + 1 := ⟨f' - 1, by omega⟩
                    have h2 := happ t
                    simp only [List.cons_append] at h2 ⊢
                    simp [pDisp, hc1, hc2, hc3, hc4, h2]
                · by_cases hc6 : c = 'n'
                  · subst hc6
                    have hms : (match pKw ['n', 'u', 'l', 'l'] ('n' :: cs) with
                        | some r => some (JVal.null, r)
                        | none => none) = some (v, r) := by
                      simpa [pDisp, hc1, hc2, hc3, hc4, hc5] using h
                    cases hkw : pKw ['n', 'u', 'l', 'l'] ('n' :: cs) with
                    | none => rw [hkw] at hms; exact absurd hms (by simp)
                    | some r1 =>
                      rw [hkw] at hms
                      simp only [Option.some.injEq, Prod.mk.injEq] at hms
                      obtain ⟨hv, hr⟩ := hms
                      subst hv; subst hr
                      obtain ⟨hu, happ⟩ := pKw_spec hkw
                      refine ⟨⟨['n', 'u', 'l', 'l'], by simpa using hu⟩, ?_⟩
                      intro f' t hf' htail
                      obtain ⟨f'', rfl⟩ : ∃ f'', f' = f'' + 1 := ⟨f' - 1, by omega⟩
                      have h2 := happ t
                      simp only [List.cons_append] at h2 ⊢
                      simp [pDisp, hc1, hc2, hc3, hc4, hc5, h2]
                  · cases hnumc : c.isDigit || decide (c = '-') with
                    | false =>
                      exfalso
                      have : pDisp (f + 1) (c :: cs) = none := by
                        simp [pDisp, hc1, hc2, hc3, hc4, hc5, hc6, hnumc]
                      rw [this] at h
                      exact absurd h (by simp)
                    | true =>
                      have hms : (match pNum (c :: cs) with
                          | some (lit, r) => some (JVal.num lit, r)
                          | none => none) = some (v, r) := by
                        simpa [pDisp, hc1, hc2, hc3, hc4, hc5, hc6, hnumc]
                          using h
                      cases hpn : pNum (c :: cs) with
                      | none => rw [hpn] at hms; exact absurd hms (by simp)
                      | some pr =>
                        obtain ⟨lit, r1⟩ := pr
                        rw [hpn] at hms
                        simp only [Option.some.injEq, Prod.mk.injEq] at hms
                        obtain ⟨hv, hr⟩ := hms
                        subst hv; subst hr
                        obtain ⟨⟨u, hu⟩, happ⟩ := pNum_spec hpn
                        refine ⟨⟨u, hu⟩, ?_⟩
                        intro f' t hf' htail
                        obtain ⟨f'', rfl⟩ : ∃ f'', f' = f'' + 1 :=
                          ⟨f' - 1, by omega⟩
                        have hr1 : r1 ≠ [] := htail
                        have h2 := happ hr1 t
                        simp only [List.cons_append] at h2 ⊢
                        simp [pDisp, hc1, hc2, hc3, hc4, hc5, hc6, hnumc, h2]
    · -- pFields
      intro s fi acc v r h
      cases hsk : skipWs s with
      | nil => simp [pFields, hsk] at h
      | cons c cs =>
        obtain ⟨u0, hu0, -⟩ := dropWhile_decomp isWs s
        have hdec : s = u0 ++ skipWs s := hu0
        have hsk' : ∀ t, skipWs (s ++ t) = c :: (cs ++ t) :=
          fun t => dropWhile_append_cons hsk t
        by_cases hc1 : c = '}'
        · subst hc1
          have hfi : fi = true := by
            cases fi
            · simp [pFields, hsk] at h
            · rfl
          subst hfi
          have hms : some (JVal.obj acc, cs) = some (v, r) := by
            simpa [pFields, hsk] using h
          simp only [Option.some.injEq, Prod.mk.injEq] at hms
          obtain ⟨hv, hr⟩ := hms
          subst hv; subst hr
          refine ⟨⟨u0 ++ ['}'], by rw [hdec, hsk]; simp⟩, ?_⟩
          intro f' t hf'
          obtain ⟨f'', rfl⟩ : ∃ f'', f' = f'' + 1 := ⟨f' - 1, by omega⟩
          simp [pFields, hsk' t]
        · by_cases hc2 : c = '"'
          · subst hc2
            have hms : (match pStrAux cs false [] with
                | none => none
                | some (key, r1) =>
                  match skipWs r1 with
                  | ':' :: r2 =>
                    match pVal f r2 with
                    | none => none
                    | some (v, r3) =>
                      match skipWs r3 with
                      | ',' :: r5 => pFields f r5 false (insertF acc key v)
                      | '}' :: r5 => some (JVal.obj (insertF acc key v), r5)
                      | _ => none
                  | _ => none) = some (v, r) := by
              simpa [pFields, hsk] using h
            cases hps : pStrAux cs false [] with
            | none => rw [hps] at hms; exact absurd hms (by simp)
            | some pr =>
              obtain ⟨key, r1⟩ := pr
              rw [hps] at hms
              simp only at hms
              obtain ⟨⟨us, hus⟩, happS⟩ := pStrAux_spec cs false [] key r1 hps
              cases hcol : skipWs r1 with
              | nil => rw [hcol] at hms; exact absurd hms (by simp)
              | cons c2 r2 =>
                rw [hcol] at hms
                by_cases hc2c : c2 = ':'
                · subst hc2c
                  simp only at hms
                  obtain ⟨u2, hu2, -⟩ := dropWhile_decomp isWs r1
                  have hdec1 : r1 = u2 ++ skipWs r1 := hu2
                  cases hpv : pVal f r2 with
                  | none => rw [hpv] at hms; exact absurd hms (by simp)
                  | some pv =>
                    obtain ⟨v1, r3⟩ := pv
                    rw [hpv] at hms
                    simp only at hms
                    obtain ⟨⟨u3, hu3⟩, happV⟩ := ihV r2 v1 r3 hpv
                    cases hsk3 : skipWs r3 with
                    | nil => rw [hsk3] at hms; exact absurd hms (by simp)
                    | cons c3 r5 =>
                      rw [hsk3] at hms
                      have hr3ne : r3 ≠ [] := skipWs_ne_nil_of_cons hsk3
                      have htok : TailOk v1 r3 := tailOk_of_ne_nil hr3ne
                      obtain ⟨u4, hu4, -⟩ := dropWhile_decomp isWs r3
                      have hdec3 : r3 = u4 ++ skipWs r3 := hu4
                      by_cases hc3c : c3 = ','
                      · subst hc3c
                        simp only at hms
                        obtain ⟨⟨u5, hu5⟩, happF⟩ :=
                          ihF r5 false (insertF acc key v1) v r hms
                        refine ⟨⟨u0 ++ '"' :: (us ++ (u2 ++ ':' ::
                          (u3 ++ (u4 ++ ',' :: u5)))), ?_⟩, ?_⟩
                        · rw [hdec, hsk, hus, hdec1, hcol, hu3, hdec3,
                            hsk3, hu5]
                          simp
                        · intro f' t hf'
                          obtain ⟨f'', rfl⟩ : ∃ f'', f' = f'' + 1 :=
                            ⟨f' - 1, by omega⟩
                          have hps' := happS t
                          have hcol' : skipWs (r1 ++ t) = ':' :: (r2 ++ t) :=
                            dropWhile_append_cons hcol t
                          have hpv' := happV f'' t (by omega) htok
                          have hsk3' : skipWs (r3 ++ t) = ',' :: (r5 ++ t) :=
                            dropWhile_append_cons hsk3 t
                          have hrec := happF f'' t (by omega)
                          simp [pFields, hsk' t, hps', hcol', hpv', hsk3', hrec]
                      · by_cases hc3d : c3 = '}'
                        · subst hc3d
                          simp only [Option.some.injEq, Prod.mk.injEq] at hms
                          obtain ⟨hv, hr⟩ := hms
                          subst hv; subst hr
                          refine ⟨⟨u0 ++ '"' :: (us ++ (u2 ++ ':' ::
                            (u3 ++ (u4 ++ ['}'])))), ?_⟩, ?_⟩
                          · rw [hdec, hsk, hus, hdec1, hcol, hu3, hdec3, hsk3]
                            simp
                          · intro f' t hf'
                            obtain ⟨f'', rfl⟩ : ∃ f'', f' = f'' + 1 :=
                              ⟨f' - 1, by omega⟩
                            have hps' := happS t
                            have hcol' : skipWs (r1 ++ t) = ':' :: (r2 ++ t) :=
                              dropWhile_append_cons hcol t
                            have hpv' := happV f'' t (by omega) htok
                            have hsk3' : skipWs (r3 ++ t) = '}' :: (r5 ++ t) :=
                              dropWhile_append_cons hsk3 t
                            simp [pFields, hsk' t, hps', hcol', hpv', hsk3']
                        · exfalso
                          have : (match c3 :: r5 with
                              | ',' :: r5 => pFields f r5 false (insertF acc key v1)
                              | '}' :: r5 => some (JVal.obj (insertF acc key v1), r5)
                              | _ => none) = none := by
                            simp [hc3c, hc3d]
                          rw [this] at hms
                          exact absurd hms (by simp)
                · exfalso
                  have : (match c2 :: r2 with
                      | ':' :: r2 =>
                        match pVal f r2 with
                        | none => none
                        | some (v, r3) =>
                          match skipWs r3 with
                          | ',' :: r5 => pFields f r5 false (insertF acc key v)
                          | '}' :: r5 => some (JVal.obj (insertF acc key v), r5)
                          | _ => none
                      | _ => none) = none := by
                    simp [hc2c]
                  rw [this] at hms
                  exact absurd hms (by simp)
          · exfalso
            have : pFields (f + 1) s fi acc = none := by
              simp [pFields, hsk, hc1, hc2]
            rw [this] at h
            exact absurd h (by simp)
    · -- pElems
      intro s fi acc v r h
      cases hsk : skipWs s with
      | nil => simp [pElems, hsk] at h
      | cons c cs =>
        obtain ⟨u0, hu0, -⟩ := dropWhile_decomp isWs s
        have hdec : s = u0 ++ skipWs s := hu0
        have hsk' : ∀ t, skipWs (s ++ t) = c :: (cs ++ t) :=
          fun t => dropWhile_append_cons hsk t
        by_cases hc1 : c = ']'
        · subst hc1
          have hfi : fi = true := by
            cases fi
            · simp [pElems, hsk] at h
            · rfl
          subst hfi
          have hms : some (JVal.arr acc, cs) = some (v, r) := by
            simpa [pElems, hsk] using h
          simp only [Option.some.injEq, Prod.mk.injEq] at hms
          obtain ⟨hv, hr⟩ := hms
          subst hv; subst hr
          refine ⟨⟨u0 ++ [']'], by rw [hdec, hsk]; simp⟩, ?_⟩
          intro f' t hf'
          obtain ⟨f'', rfl⟩ : ∃ f'', f' = f'' + 1 := ⟨f' - 1, by omega⟩
          simp [pElems, hsk' t]
        · have hms : (match pVal f s with
              | none => none
              | some (v, r1) =>
                match skipWs r1 with
                | ',' :: r2 => pElems f r2 false (acc ++ [v])
                | ']' :: r2 => some (JVal.arr (acc ++ [v]), r2)
                | _ => none) = some (v, r) := by
            simpa [pElems, hsk, hc1] using h
          cases hpv : pVal f s with
          | none => rw [hpv] at hms; exact absurd hms (by simp)
          | some pv =>
            obtain ⟨v1, r1⟩ := pv
            rw [hpv] at hms
            simp only at hms
            obtain ⟨⟨u1, hu1⟩, happV⟩ := ihV s v1 r1 hpv
            cases hsk1 : skipWs r1 with
            | nil => rw [hsk1] at hms; exact absurd hms (by simp)
            | cons c2 r2 =>
              rw [hsk1] at hms
              have hr1ne : r1 ≠ [] := skipWs_ne_nil_of_cons hsk1
              have htok : TailOk v1 r1 := tailOk_of_ne_nil hr1ne
              obtain ⟨u2, hu2, -⟩ := dropWhile_decomp isWs r1
              have hdec1 : r1 = u2 ++ skipWs r1 := hu2
              by_cases hc2c : c2 = ','
              · subst hc2c
                simp only at hms
                obtain ⟨⟨u3, hu3⟩, happE⟩ := ihE r2 false (acc ++ [v1]) v r hms
                refine ⟨⟨u1 ++ (u2 ++ ',' :: u3), ?_⟩, ?_⟩
                · rw [hu1, hdec1, hsk1, hu3]
                  simp
                · intro f' t hf'
                  obtain ⟨f'', rfl⟩ : ∃ f'', f' = f'' + 1 := ⟨f' - 1, by omega⟩
                  have hpv' := happV f'' t (by omega) htok
                  have hsk1' : skipWs (r1 ++ t) = ',' :: (r2 ++ t) :=
                    dropWhile_append_cons hsk1 t
                  have hrec := happE f'' t (by omega)
                  simp [pElems, hsk' t, hc1, hpv', hsk1', hrec]
              · by_cases hc2d : c2 = ']'
                · subst hc2d
                  simp only [Option.some.injEq, Prod.mk.injEq] at hms
                  obtain ⟨hv, hr⟩ := hms
                  subst hv; subst hr
                  refine ⟨⟨u1 ++ (u2 ++ [']']), ?_⟩, ?_⟩
                  · rw [hu1, hdec1, hsk1]
                    simp
                  · intro f' t hf'
                    obtain ⟨f'', rfl⟩ : ∃ f'', f' = f'' + 1 := ⟨f' - 1, by omega⟩
                    have hpv' := happV f'' t (by omega) htok
                    have hsk1' : skipWs (r1 ++ t) = ']' :: (r2 ++ t) :=
                      dropWhile_append_cons hsk1 t
                    simp [pElems, hsk' t, hc1, hpv', hsk1']
                · exfalso
                  have : (match c2 :: r2 with
                      | ',' :: r2 => pElems f r2 false (acc ++ [v1])
                      | ']' :: r2 => some (JVal.arr (acc ++ [v1]), r2)
                      | _ => none) = none := by
                    simp [hc2c, hc2d]
                  rw [this] at hms
                  exact absurd hms (by simp)

theorem pVal_suffix {f : Nat} {s : List Char} {v : JVal} {r : List Char}
    (h : pVal f s = some (v, r)) : ∃ u, s = u ++ r :=
  ((pAll f).1 s v r h).1

theorem pVal_append_obj {f f' : Nat} {s : List Char} {flds : JMap}
    {r t : List Char} (h : pVal f s = some (JVal.obj flds, r)) (hf : f ≤ f') :
    pVal f' (s ++ t) = some (JVal.obj flds, r ++ t) :=
  ((pAll f).1 s _ r h).2 f' t hf (by simp [TailOk])

theorem pVal_skip_congr {f : Nat} {x y : List Char} (h : skipWs x = skipWs y) :
    pVal (f + 1) x = pVal (f + 1) y := by
  show pDisp f (skipWs x) = pDisp f (skipWs y)
  rw [h]

theorem pVal_obj_brace {f : Nat} {s : List Char} {flds : JMap}
    {r : List Char} (h : pVal f s = some (JVal.obj flds, r)) :
    ∃ cs, skipWs s = '{' :: cs := by
  cases f with
  | zero => simp [pVal] at h
  | succ f => exact pDisp_obj h

theorem lineDecode_spec {w : List Char} {m : JMap}
    (h : lineDecode w = some m) :
    ∃ rw, pVal (2 * w.length + 8) w = some (JVal.obj m, rw) ∧
      skipWs rw = [] := by
  unfold lineDecode at h
  split at h
  case _ flds r heq =>
    split at h
    case isTrue hemp =>
      simp only [Option.some.injEq] at h
      subst h
      exact ⟨r, heq, by simpa [List.isEmpty_iff] using hemp⟩
    case isFalse => simp at h
  case _ => simp at h

theorem validLine_decode {w : List Char} (h : ValidLine w) :
    ∃ m, lineDecode w = some m := by
  unfold ValidLine at h
  exact Option.isSome_iff_exists.mp h

theorem validLine_ne_nil {w : List Char} (h : ValidLine w) : w ≠ [] := by
  obtain ⟨m, hm⟩ := validLine_decode h
  obtain ⟨rw, hp, -⟩ := lineDecode_spec hm
  intro h0
  subst h0
  rw [pVal_nil] at hp
  exact absurd hp (by simp)

/-- The decoded field map of one log line (empty when invalid). -/
def lineMap (w : List Char) : JMap := (lineDecode w).getD []

/-- The entries that decoding a list of valid writes must produce, with
indices starting at `i`. -/
def mkEntries : List (List Char) → Nat → List Entry
  | [], _ => []
  | w :: ws, i => { raw := trimB w, m := lineMap w, idx := i } :: mkEntries ws (i + 1)

theorem mkEntries_length (ws : List (List Char)) (i : Nat) :
    (mkEntries ws i).length = ws.length := by
  induction ws generalizing i with
  | nil => rfl
  | cons w ws ih => simp [mkEntries, ih]

theorem mkEntries_getD (ws : List (List Char)) (i : Nat) :
    ∀ j, j < ws.length →
      (mkEntries ws i).getD j ZeroEntry =
        { raw := trimB (ws.getD j []), m := lineMap (ws.getD j []),
          idx := i + j } := by
  induction ws generalizing i with
  | nil => intro j hj; simp at hj
  | cons w ws ih =>
    intro j hj
    cases j with
    | zero => simp [mkEntries]
    | succ j =>
      have := ih (i + 1) j (by simpa using hj)
      simpa [mkEntries, Nat.add_assoc, Nat.add_comm 1 j] using this

/-- The streaming decode of a whitespace chunk, a block of valid JSON log
lines, and an arbitrary rest: it produces exactly the block's entries and
continues into the rest behind a whitespace chunk. -/
theorem entriesLoop_concat : ∀ (ws : List (List Char)) (f : Nat)
    (pre suf : List Char) (idx : Nat) (acc : List Entry),
    (∀ c ∈ pre, isWs c) → (∀ w ∈ ws, ValidLine w) → ws.length < f →
    ∃ wsp, (∀ c ∈ wsp, isWs c) ∧
      entriesLoop f (pre ++ ws.flatten ++ suf) idx acc =
        entriesLoop (f - ws.length) (wsp ++ suf) (idx + ws.length)
          (acc ++ mkEntries ws idx) := by
  intro ws
  induction ws with
  | nil =>
    intro f pre suf idx acc hpre hv hf
    exact ⟨pre, hpre, by simp [mkEntries]⟩
  | cons w ws ih =>
    intro f pre suf idx acc hpre hv hf
    obtain ⟨f1, rfl⟩ : ∃ f1, f = f1 + 1 := ⟨f - 1, by omega⟩
    have hvw : ValidLine w := hv w (by simp)
    obtain ⟨m, hm⟩ := validLine_decode hvw
    obtain ⟨rw, hpw, hrw⟩ := lineDecode_spec hm
    have hrwws : ∀ c ∈ rw, isWs c := all_of_dropWhile_nil hrw
    obtain ⟨cs0, hsw⟩ := pVal_obj_brace hpw
    obtain ⟨uw, huw⟩ := pVal_suffix hpw
    set js := ws.flatten ++ suf with hjs
    set rest := pre ++ (w :: ws).flatten ++ suf with hrest
    have hrest2 : rest = pre ++ (w ++ js) := by
      simp [hrest, hjs]
    -- the More() check
    have hskr : skipWs rest = '{' :: (cs0 ++ js) := by
      rw [hrest2, skipWs_ws_chunk hpre]
      exact dropWhile_append_cons hsw js
    -- the Decode() step
    obtain ⟨f2, hf2⟩ : ∃ f2, 2 * rest.length + 8 = f2 + 1 :=
      ⟨2 * rest.length + 7, by omega⟩
    have hlen : 2 * w.length + 8 ≤ 2 * rest.length + 8 := by
      have : w.length ≤ rest.length := by
        rw [hrest2]
        simp
        omega
      omega
    have hpr : pVal (2 * rest.length + 8) rest =
        some (JVal.obj m, rw ++ js) := by
      have e1 : pVal (2 * rest.length + 8) rest =
          pVal (2 * rest.length + 8) (w ++ js) := by
        rw [hf2]
        apply pVal_skip_congr
        rw [hrest2, skipWs_ws_chunk hpre]
      rw [e1]
      exact pVal_append_obj hpw hlen
    -- the raw segment
    have hwlen : rw.length ≤ w.length := by
      rw [huw]
      simp
    have hconsumed : rest.take (rest.length - (rw ++ js).length) =
        pre ++ uw := by
      have hre : rest = (pre ++ uw) ++ (rw ++ js) := by
        rw [hrest2, huw]
        simp
      have hlen2 : rest.length - (rw ++ js).length = (pre ++ uw).length := by
        rw [hre]
        simp
        omega
      rw [hlen2, hre]
      exact List.take_left ..
    have htrim : trimB (pre ++ uw) = trimB w := by
      rw [trimB_ws_chunk hpre, huw, trimB_ws_suffix hrwws]
    -- one unfolding of the loop
    have hstep : entriesLoop (f1 + 1) rest idx acc =
        entriesLoop f1 (rw ++ js) (idx + 1)
          (acc ++ [{ raw := trimB w, m := lineMap w, idx := idx }]) := by
      simp only [entriesLoop, hskr, hpr, hconsumed]
      rw [htrim]
      have : lineMap w = m := by simp [lineMap, hm]
      rw [this]
      simp
    obtain ⟨wsp, hwsp, hrec⟩ := ih f1 rw suf (idx + 1)
      (acc ++ [{ raw := trimB w, m := lineMap w, idx := idx }])
      hrwws (fun x hx => hv x (by simp [hx])) (by simpa using hf)
    refine ⟨wsp, hwsp, ?_⟩
    rw [hstep]
    have hj2 : rw ++ js = rw ++ ws.flatten ++ suf := by simp [hjs]
    rw [hj2, hrec]
    have e2 : f1 - ws.length = f1 + 1 - (ws.length + 1) := by omega
    have e3 : idx + 1 + ws.length = idx + (ws.length + 1) := by omega
    have e4 : (acc ++ [{ raw := trimB w, m := lineMap w, idx := idx }]) ++
        mkEntries ws (idx + 1) = acc ++ mkEntries (w :: ws) idx := by
      simp [mkEntries]
    rw [e2, e3, e4]
    simp [mkEntries]

theorem entriesLoop_ws_nil {f : Nat} {wsp : List Char}
    (h : ∀ c ∈ wsp, isWs c) (hf : 1 ≤ f) (idx : Nat) (acc : List Entry) :
    entriesLoop f wsp idx acc = (acc, false) := by
  obtain ⟨f1, rfl⟩ : ∃ f1, f = f1 + 1 := ⟨f - 1, by omega⟩
  have : skipWs wsp = [] := dropWhile_all_nil h
  simp [entriesLoop, this]

theorem length_le_flatten {ws : List (List Char)}
    (h : ∀ w ∈ ws, w ≠ []) : ws.length ≤ ws.flatten.length := by
  induction ws with
  | nil => simp
  | cons w tl ih =>
    have hw : w ≠ [] := h w (by simp)
    have hlen : 1 ≤ w.length := by
      cases w
      · exact absurd rfl hw
      · simp
    have := ih (fun x hx => h x (by simp [hx]))
    simp only [List.flatten_cons, List.length_cons, List.length_append]
    omega

/-- Streaming decode of a buffer made of valid JSON log lines. -/
theorem entriesE_of_valid {ws : List (List Char)}
    (hv : ∀ w ∈ ws, ValidLine w) {tst : Tester}
    (hbuf : tst.buf = ws.flatten) :
    tst.entriesE = (mkEntries ws 0, false) := by
  have hne : ∀ w ∈ ws, w ≠ [] := fun w hw => validLine_ne_nil (hv w hw)
  have hlen : ws.length < tst.buf.length + 1 := by
    have := length_le_flatten hne
    rw [hbuf]
    omega
  obtain ⟨wsp, hwsp, heq⟩ := entriesLoop_concat ws (tst.buf.length + 1)
    [] [] 0 [] (by simp) hv hlen
  unfold Tester.entriesE
  have hb2 : [] ++ ws.flatten ++ [] = tst.buf := by simp [hbuf]
  rw [hb2] at heq
  rw [heq]
  have hf1 : 1 ≤ tst.buf.length + 1 - ws.length := by omega
  rw [entriesLoop_ws_nil (by simpa using hwsp) hf1]
  simp

/-! ### Lemmas about the current matcher and the sink operations -/

theorem MatchLine_id {mcr : Mcr} {idx : Nat} {line : List Char} :
    (mcr.MatchLine idx line).2.1.id = mcr.id ∧
    (mcr.MatchLine idx line).2.1.notify = mcr.notify ∧
    (mcr.MatchLine idx line).2.1.checks = mcr.checks := by
  unfold Mcr.MatchLine
  cases h : unmarshalMap (trimB line) with
  | none => simp [h]
  | some dst =>
    simp only [h]
    by_cases hall : (mcr.checks.all fun chk =>
        (chk { raw := trimB line, m := dst, idx := idx }).isNone) = true
    · rw [if_pos hall]
      exact ⟨rfl, rfl, rfl⟩
    · rw [if_neg hall]
      exact ⟨rfl, rfl, rfl⟩

theorem unmarshal_trim_ne_nil {p : List Char} {dst : JMap}
    (h : unmarshalMap (trimB p) = some dst) : trimB p ≠ [] := by
  intro h0
  rw [h0] at h
  unfold unmarshalMap at h
  rw [pVal_nil] at h
  simp at h

/-- Full characterisation of `MatchLine`. -/
theorem MatchLine_cases (mcr : Mcr) (idx : Nat) (line : List Char) :
    (∀ dst, unmarshalMap (trimB line) = some dst →
      ((mcr.checks.all fun chk =>
          (chk { raw := trimB line, m := dst, idx := idx }).isNone) = true →
        mcr.MatchLine idx line =
          ({ raw := trimB line, m := dst, idx := idx },
            { mcr with cnt := mcr.cnt + 1 }, mcr.notify, [])) ∧
      ((mcr.checks.all fun chk =>
          (chk { raw := trimB line, m := dst, idx := idx }).isNone) = false →
        mcr.MatchLine idx line = (ZeroEntry, mcr, false, []))) ∧
    (unmarshalMap (trimB line) = none →
      mcr.MatchLine idx line =
        (ZeroEntry, mcr, false, [Report.matcherLineError idx])) := by
  constructor
  · intro dst hdst
    constructor
    · intro hall
      unfold Mcr.MatchLine
      rw [hdst]
      simp [hall]
    · intro hall
      unfold Mcr.MatchLine
      rw [hdst]
      simp [hall]
  · intro hnone
    unfold Mcr.MatchLine
    rw [hnone]

theorem MatchLine_isZero_false {mcr : Mcr} {idx : Nat} {line : List Char}
    (h : (mcr.MatchLine idx line).1.IsZero = false) :
    ∃ dst, unmarshalMap (trimB line) = some dst ∧
      (mcr.checks.all fun chk =>
        (chk { raw := trimB line, m := dst, idx := idx }).isNone) = true ∧
      (mcr.MatchLine idx line).1 =
        { raw := trimB line, m := dst, idx := idx } := by
  cases hdst : unmarshalMap (trimB line) with
  | none =>
    rw [((MatchLine_cases mcr idx line).2) hdst] at h
    simp [ZeroEntry, Entry.IsZero] at h
  | some dst =>
    by_cases hall : (mcr.checks.all fun chk =>
        (chk { raw := trimB line, m := dst, idx := idx }).isNone) = true
    · exact ⟨dst, rfl, hall, by
        rw [((MatchLine_cases mcr idx line).1 dst hdst).1 hall]⟩
    · rw [((MatchLine_cases mcr idx line).1 dst hdst).2
        (Bool.not_eq_true _ ▸ hall)] at h
      simp [ZeroEntry, Entry.IsZero] at h

theorem MatchLine_isZero_true {mcr : Mcr} {idx : Nat} {line : List Char}
    (h : (mcr.MatchLine idx line).1.IsZero = true) :
    (mcr.MatchLine idx line).2.1 = mcr ∧
    (mcr.MatchLine idx line).2.2.1 = false := by
  cases hdst : unmarshalMap (trimB line) with
  | none => rw [((MatchLine_cases mcr idx line).2) hdst]; exact ⟨rfl, rfl⟩
  | some dst =>
    by_cases hall : (mcr.checks.all fun chk =>
        (chk { raw := trimB line, m := dst, idx := idx }).isNone) = true
    · rw [((MatchLine_cases mcr idx line).1 dst hdst).1 hall] at h ⊢
      have : trimB line ≠ [] := unmarshal_trim_ne_nil hdst
      simp [Entry.IsZero, List.isEmpty_iff, this] at h
    · rw [((MatchLine_cases mcr idx line).1 dst hdst).2
        (Bool.not_eq_true _ ▸ hall)]
      exact ⟨rfl, rfl⟩

/-- The cursor stays strictly below the write counter. -/
def CursorOk (tst : Tester) : Prop := tst.matchIdx < (tst.cnt : Int)

theorem Write_empty {tst : Tester} {p : List Char}
    (h : tst.matchers = []) :
    tst.Write p = { tst with cnt := tst.cnt + 1, buf := tst.buf ++ p } := by
  simp [Tester.Write, h]

theorem Write_head_fail {tst : Tester} {m : Mcr} {rest : List Mcr}
    {p : List Char} (hq : tst.matchers = m :: rest)
    (hz : (m.MatchLine tst.cnt p).1.IsZero = true) :
    tst.Write p = { tst with
      cnt := tst.cnt + 1
      buf := tst.buf ++ p
      matchers := (m.MatchLine tst.cnt p).2.1 :: rest
      reports := tst.reports ++ (m.MatchLine tst.cnt p).2.2.2
      evals := tst.evals ++ [m.id] } := by
  rcases hml : m.MatchLine tst.cnt p with ⟨ent, m', sent, reps⟩
  rw [hml] at hz
  simp only at hz
  simp [Tester.Write, hq, hml, hz]

theorem Write_head_succ {tst : Tester} {m : Mcr} {rest : List Mcr}
    {p : List Char} (hq : tst.matchers = m :: rest)
    (hz : (m.MatchLine tst.cnt p).1.IsZero = false) :
    tst.Write p = { tst with
      cnt := tst.cnt + 1
      buf := tst.buf ++ p
      matchIdx := (tst.cnt : Int)
      matchers := rest
      reports := tst.reports ++ (m.MatchLine tst.cnt p).2.2.2
      deliveries := tst.deliveries ++
        (if (m.MatchLine tst.cnt p).2.2.1 then
          [((m.MatchLine tst.cnt p).2.1.id, (m.MatchLine tst.cnt p).1)]
         else [])
      evals := tst.evals ++ [m.id] } := by
  rcases hml : m.MatchLine tst.cnt p with ⟨ent, m', sent, reps⟩
  rw [hml] at hz
  simp only at hz
  simp only [Tester.Write, hq, Nat.add_sub_cancel, hml, hz,
    Bool.false_eq_true, if_false]
  congr 1
  push_cast
  omega

theorem Write_cnt (tst : Tester) (p : List Char) :
    (tst.Write p).cnt = tst.cnt + 1 := by
  cases hq : tst.matchers with
  | nil => rw [Write_empty hq]
  | cons m rest =>
    cases hz : (m.MatchLine tst.cnt p).1.IsZero with
    | true => rw [Write_head_fail hq hz]
    | false => rw [Write_head_succ hq hz]

theorem Write_buf (tst : Tester) (p : List Char) :
    (tst.Write p).buf = tst.buf ++ p := by
  cases hq : tst.matchers with
  | nil => rw [Write_empty hq]
  | cons m rest =>
    cases hz : (m.MatchLine tst.cnt p).1.IsZero with
    | true => rw [Write_head_fail hq hz]
    | false => rw [Write_head_succ hq hz]

theorem Write_nextId (tst : Tester) (p : List Char) :
    (tst.Write p).nextId = tst.nextId := by
  cases hq : tst.matchers with
  | nil => rw [Write_empty hq]
  | cons m rest =>
    cases hz : (m.MatchLine tst.cnt p).1.IsZero with
    | true => rw [Write_head_fail hq hz]
    | false => rw [Write_head_succ hq hz]

theorem Write_cursorOk {tst : Tester} (h : CursorOk tst) (p : List Char) :
    CursorOk (tst.Write p) ∧ tst.matchIdx ≤ (tst.Write p).matchIdx := by
  unfold CursorOk at h ⊢
  cases hq : tst.matchers with
  | nil =>
    rw [Write_empty hq]
    constructor
    · simp only
      push_cast
      omega
    · simp
  | cons m rest =>
    cases hz : (m.MatchLine tst.cnt p).1.IsZero with
    | true =>
      rw [Write_head_fail hq hz]
      constructor
      · simp only
        push_cast
        omega
      · simp
    | false =>
      rw [Write_head_succ hq hz]
      constructor
      · simp only
        push_cast
        omega
      · simp only
        omega

theorem Write_deliveries (tst : Tester) (p : List Char) :
    ∃ new, (tst.Write p).deliveries = tst.deliveries ++ new ∧
      ∀ d ∈ new, d.2.idx = tst.cnt ∧
        ((d.2.idx : Int) = (tst.Write p).matchIdx) ∧
        (∃ m0 ∈ tst.matchers, d.1 = m0.id) := by
  cases hq : tst.matchers with
  | nil =>
    rw [Write_empty hq]
    exact ⟨[], by simp⟩
  | cons m rest =>
    cases hz : (m.MatchLine tst.cnt p).1.IsZero with
    | true =>
      rw [Write_head_fail hq hz]
      exact ⟨[], by simp⟩
    | false =>
      rw [Write_head_succ hq hz]
      cases hsent : (m.MatchLine tst.cnt p).2.2.1 with
      | false => exact ⟨[], by simp [hsent]⟩
      | true =>
        refine ⟨[((m.MatchLine tst.cnt p).2.1.id, (m.MatchLine tst.cnt p).1)],
          by simp [hsent], ?_⟩
        intro d hd
        simp only [List.mem_singleton] at hd
        subst hd
        obtain ⟨dst, hdst, hall, hent⟩ := MatchLine_isZero_false hz
        refine ⟨by rw [hent], by rw [hent], ?_⟩
        exact ⟨m, by simp, (MatchLine_id).1.symm ▸ rfl⟩

theorem Write_matcher_ids {tst : Tester} {p : List Char} :
    ∀ mm ∈ (tst.Write p).matchers, ∃ m0 ∈ tst.matchers, mm.id = m0.id := by
  cases hq : tst.matchers with
  | nil =>
    rw [Write_empty hq]
    simp [hq]
  | cons m rest =>
    cases hz : (m.MatchLine tst.cnt p).1.IsZero with
    | true =>
      rw [Write_head_fail hq hz]
      intro mm hmm
      simp only [List.mem_cons] at hmm
      cases hmm with
      | inl h0 =>
        exact ⟨m, by simp, by rw [h0, (MatchLine_id).1]⟩
      | inr h0 => exact ⟨mm, by simp [h0], rfl⟩
    | false =>
      rw [Write_head_succ hq hz]
      intro mm hmm
      simp only at hmm
      exact ⟨mm, by simp [hmm], rfl⟩

theorem processWrites_cons (tst : Tester) (p : List Char)
    (ps : List (List Char)) :
    tst.processWrites (p :: ps) = (tst.Write p).processWrites ps := rfl

theorem processWrites_core (ps : List (List Char)) : ∀ (tst : Tester),
    (tst.processWrites ps).buf = tst.buf ++ ps.flatten ∧
    (tst.processWrites ps).cnt = tst.cnt + ps.length ∧
    (tst.processWrites ps).nextId = tst.nextId := by
  induction ps with
  | nil => intro tst; simp [Tester.processWrites]
  | cons p ps ih =>
    intro tst
    rw [processWrites_cons]
    obtain ⟨h1, h2, h3⟩ := ih (tst.Write p)
    refine ⟨?_, ?_, ?_⟩
    · rw [h1, Write_buf]; simp
    · rw [h2, Write_cnt]; simp [List.length_cons]; omega
    · rw [h3, Write_nextId]

theorem processWrites_cursor (ps : List (List Char)) : ∀ (tst : Tester),
    CursorOk tst →
    CursorOk (tst.processWrites ps) ∧
    tst.matchIdx ≤ (tst.processWrites ps).matchIdx ∧
    ∃ new, (tst.processWrites ps).deliveries = tst.deliveries ++ new ∧
      ∀ d ∈ new, (tst.cnt : Int) ≤ (d.2.idx : Int) ∧
        (d.2.idx : Int) ≤ (tst.processWrites ps).matchIdx := by
  induction ps with
  | nil =>
    intro tst hc
    exact ⟨hc, le_refl _, [], by simp [Tester.processWrites], by simp⟩
  | cons p ps ih =>
    intro tst hc
    rw [processWrites_cons]
    obtain ⟨hc1, hmono1⟩ := Write_cursorOk hc p
    obtain ⟨hc2, hmono2, new2, hdel2, hnew2⟩ := ih (tst.Write p) hc1
    obtain ⟨new1, hdel1, hnew1⟩ := Write_deliveries tst p
    refine ⟨hc2, le_trans hmono1 hmono2, new1 ++ new2, ?_, ?_⟩
    · rw [hdel2, hdel1, List.append_assoc]
    · intro d hd
      rcases List.mem_append.mp hd with h1 | h2
      · obtain ⟨hidx, heq, -⟩ := hnew1 d h1
        constructor
        · rw [hidx]
        · rw [heq] at *
          exact le_trans (le_of_eq rfl) hmono2
      · obtain ⟨hidx, hle⟩ := hnew2 d h2
        constructor
        · have : (tst.cnt : Int) ≤ ((tst.Write p).cnt : Int) := by
            rw [Write_cnt]; push_cast; omega
          exact le_trans this hidx
        · exact hle

/-- Reachable-state invariant of the sink: the cursor is at least -1 and
below the write count, the buffer is a concatenation of counted valid log
lines, and all matcher identities (queued or delivered-to) are below the
ghost supply. -/
structure SinkInv (tst : Tester) : Prop where
  cur_lb : -1 ≤ tst.matchIdx
  cur_ok : CursorOk tst
  buf_ok : ∃ ws : List (List Char), (∀ w ∈ ws, ValidLine w) ∧
    tst.buf = ws.flatten ∧ tst.cnt = ws.length
  ids_m : ∀ m ∈ tst.matchers, m.id < tst.nextId
  ids_d : ∀ d ∈ tst.deliveries, d.1 < tst.nextId

theorem newTester_inv : SinkInv newTester := by
  refine ⟨by simp [newTester], by simp [newTester, CursorOk],
    ⟨[], by simp, by simp [newTester], by simp [newTester]⟩,
    by simp [newTester], by simp [newTester]⟩

theorem Write_inv {tst : Tester} (hi : SinkInv tst) {p : List Char}
    (hp : ValidLine p) : SinkInv (tst.Write p) := by
  obtain ⟨ws, hwsv, hwsb, hwsc⟩ := hi.buf_ok
  refine ⟨?_, (Write_cursorOk hi.cur_ok p).1, ?_, ?_, ?_⟩
  · exact le_trans hi.cur_lb (Write_cursorOk hi.cur_ok p).2
  · refine ⟨ws ++ [p], ?_, ?_, ?_⟩
    · intro w hw
      rcases List.mem_append.mp hw with h1 | h2
      · exact hwsv w h1
      · rw [List.mem_singleton.mp h2]; exact hp
    · rw [Write_buf, hwsb]; simp
    · rw [Write_cnt, hwsc]; simp
  · intro m hm
    obtain ⟨m0, hm0, hid⟩ := Write_matcher_ids m hm
    rw [Write_nextId, hid]
    exact hi.ids_m m0 hm0
  · intro d hd
    obtain ⟨new, hdel, hnew⟩ := Write_deliveries tst p
    rw [hdel] at hd
    rcases List.mem_append.mp hd with h1 | h2
    · rw [Write_nextId]; exact hi.ids_d d h1
    · obtain ⟨-, -, m0, hm0, hid⟩ := hnew d h2
      rw [Write_nextId, hid]
      exact hi.ids_m m0 hm0

theorem processWrites_inv (ps : List (List Char)) : ∀ (tst : Tester),
    SinkInv tst → (∀ w ∈ ps, ValidLine w) → SinkInv (tst.processWrites ps) := by
  induction ps with
  | nil => intro tst hi _; exact hi
  | cons p ps ih =>
    intro tst hi hv
    rw [processWrites_cons]
    exact ih (tst.Write p) (Write_inv hi (hv p (by simp)))
      (fun w hw => hv w (by simp [hw]))

theorem replayFind_spec {checks : List Chk} {mi : Int} :
    ∀ (l : List Entry) (k : Nat) (i : Nat) (ent : Entry),
    replayFind checks mi l k = some (i, ent) →
    mi < (i : Int) ∧ k ≤ i ∧ i - k < l.length ∧
      l.getD (i - k) ZeroEntry = ent ∧
      (checks.all fun chk => (chk ent).isNone) = true := by
  intro l
  induction l with
  | nil => intro k i ent h; simp [replayFind] at h
  | cons e0 tl ih =>
    intro k i ent h
    unfold replayFind at h
    by_cases hskip : (k : Int) ≤ mi
    · rw [if_pos hskip] at h
      obtain ⟨h1, h2, h3, h4, h5⟩ := ih (k + 1) i ent h
      refine ⟨h1, by omega, by simp; omega, ?_, h5⟩
      have he : i - k = (i - (k + 1)) + 1 := by omega
      rw [he]
      simpa using h4
    · rw [if_neg hskip] at h
      by_cases hm : (checks.all fun chk => (chk e0).isNone) = true
      · rw [if_pos hm] at h
        simp only [Option.some.injEq, Prod.mk.injEq] at h
        obtain ⟨hki, hent⟩ := h
        subst hki
        subst hent
        exact ⟨by omega, le_refl _, by simp, by simp, hm⟩
      · rw [if_neg hm] at h
        obtain ⟨h1, h2, h3, h4, h5⟩ := ih (k + 1) i ent h
        refine ⟨h1, by omega, by simp; omega, ?_, h5⟩
        have he : i - k = (i - (k + 1)) + 1 := by omega
        rw [he]
        simpa using h4

theorem firstDelivery_mem {id : Nat} {ds : List (Nat × Entry)} {ent : Entry}
    (h : firstDelivery id ds = some ent) :
    ∃ d ∈ ds, d.1 = id ∧ d.2 = ent := by
  unfold firstDelivery at h
  cases hf : ds.filter (fun d => d.1 = id) with
  | nil => rw [hf] at h; simp at h
  | cons d0 tl =>
    rw [hf] at h
    simp only [Option.some.injEq] at h
    subst h
    have hd0 : d0 ∈ ds.filter (fun d => d.1 = id) := by rw [hf]; simp
    have := List.mem_filter.mp hd0
    exact ⟨d0, this.1, by simpa using this.2, rfl⟩

theorem firstDelivery_append_skip {id : Nat} {ds1 ds2 : List (Nat × Entry)}
    (h : ∀ d ∈ ds1, d.1 ≠ id) :
    firstDelivery id (ds1 ++ ds2) = firstDelivery id ds2 := by
  unfold firstDelivery
  rw [List.filter_append]
  have : ds1.filter (fun d => d.1 = id) = [] := by
    rw [List.filter_eq_nil_iff]
    intro d hd
    simpa using h d hd
  rw [this]
  simp

theorem stopQueued_ids {id : Nat} {ms : List Mcr} :
    ∀ m ∈ stopQueued id ms, ∃ m0 ∈ ms, m.id = m0.id := by
  intro m hm
  unfold stopQueued at hm
  obtain ⟨m0, hm0, heq⟩ := List.mem_map.mp hm
  by_cases hid : m0.id = id
  · rw [if_pos hid] at heq
    exact ⟨m0, hm0, by rw [← heq]; rfl⟩
  · rw [if_neg hid] at heq
    exact ⟨m0, hm0, by rw [← heq]⟩

theorem entriesList_buf_congr {tst1 tst2 : Tester}
    (h : tst1.buf = tst2.buf) : tst1.entriesList = tst2.entriesList := by
  unfold Tester.entriesList Tester.entriesE
  rw [h]

theorem entriesList_inv {tst : Tester} (hi : SinkInv tst) :
    ∃ ws : List (List Char), (∀ w ∈ ws, ValidLine w) ∧
      tst.buf = ws.flatten ∧ tst.cnt = ws.length ∧
      tst.entriesList = mkEntries ws 0 := by
  obtain ⟨ws, h1, h2, h3⟩ := hi.buf_ok
  refine ⟨ws, h1, h2, h3, ?_⟩
  unfold Tester.entriesList
  rw [entriesE_of_valid h1 h2]

/-- The state after the registration phase of a blocking `WaitFor`,
including the writes processed while blocked: the fresh matcher (with its
notify channel active) is appended to the queue tail and the ghost id
supply is bumped. -/
def blockedState (tst : Tester) (checks : List Chk)
    (future : List (List Char)) : Tester :=
  ({ tst with
      matchers := tst.matchers ++
        [{ checks := checks, cnt := 0, notify := true, id := tst.nextId }]
      nextId := tst.nextId + 1 } : Tester).processWrites future

theorem entriesList_set_matchers (tst : Tester) (ms : List Mcr) :
    ({ tst with matchers := ms } : Tester).entriesList = tst.entriesList :=
  entriesList_buf_congr rfl

theorem WaitFor_durErr {tst : Tester} {tmo : String} {checks : List Chk}
    {future : List (List Char)} (hd : ParseDuration tmo = none) :
    tst.WaitFor tmo checks future =
      (ZeroEntry,
        { tst with reports := tst.reports ++ [Report.durationError tmo] }) := by
  unfold Tester.WaitFor
  rw [hd]

theorem WaitFor_replay {tst : Tester} {tmo : String} {checks : List Chk}
    {future : List (List Char)} {d : Nat} {i : Nat} {ent : Entry}
    (hd : ParseDuration tmo = some d)
    (hrf : replayFind checks tst.matchIdx tst.entriesList 0 = some (i, ent)) :
    tst.WaitFor tmo checks future =
      (ent, { tst with nextId := tst.nextId + 1, matchIdx := (i : Int) }) := by
  unfold Tester.WaitFor
  rw [hd]
  have hel : ({ tst with nextId := tst.nextId + 1 } : Tester).entriesList =
      tst.entriesList := entriesList_buf_congr rfl
  simp only [hel, hrf]

theorem WaitFor_delivered {tst : Tester} {tmo : String} {checks : List Chk}
    {future : List (List Char)} {d : Nat} {ent : Entry}
    (hd : ParseDuration tmo = some d)
    (hrf : replayFind checks tst.matchIdx tst.entriesList 0 = none)
    (hfd : firstDelivery tst.nextId
      (blockedState tst checks future).deliveries = some ent) :
    tst.WaitFor tmo checks future = (ent, blockedState tst checks future) := by
  unfold Tester.WaitFor
  rw [hd]
  have hel : ({ tst with nextId := tst.nextId + 1 } : Tester).entriesList =
      tst.entriesList := entriesList_buf_congr rfl
  simp only [hel, hrf, newMcr]
  unfold blockedState at hfd ⊢
  simp only [hfd]

theorem WaitFor_timeout {tst : Tester} {tmo : String} {checks : List Chk}
    {future : List (List Char)} {d : Nat}
    (hd : ParseDuration tmo = some d)
    (hrf : replayFind checks tst.matchIdx tst.entriesList 0 = none)
    (hfd : firstDelivery tst.nextId
      (blockedState tst checks future).deliveries = none) :
    tst.WaitFor tmo checks future =
      (ZeroEntry,
        { blockedState tst checks future with
          matchers := stopQueued tst.nextId
            (blockedState tst checks future).matchers
          reports := (blockedState tst checks future).reports ++
            [Report.timeoutReached tmo,
             Report.summary
              ((blockedState tst checks future).entriesList.map Entry.raw)] }) := by
  unfold Tester.WaitFor
  rw [hd]
  have hel : ({ tst with nextId := tst.nextId + 1 } : Tester).entriesList =
      tst.entriesList := entriesList_buf_congr rfl
  simp only [hel, hrf, newMcr]
  unfold blockedState at hfd ⊢
  simp only [hfd, entriesList_set_matchers]

/-- The state and return-value facts of a `WaitFor` call from an invariant
state with valid writes arriving while blocked: the invariant is preserved
and a non-zero returned entry has an index above the pre-call cursor and at
or below the post-call cursor. -/
theorem WaitFor_main {tst : Tester} {tmo : String} {checks : List Chk}
    {future : List (List Char)} {e : Entry} {tst' : Tester}
    (hi : SinkInv tst) (hfut : ∀ w ∈ future, ValidLine w)
    (h : tst.WaitFor tmo checks future = (e, tst')) :
    SinkInv tst' ∧
    (e.IsZero = false →
      (e.idx : Int) ≤ tst'.matchIdx ∧ tst.matchIdx < (e.idx : Int)) := by
  cases hpd : ParseDuration tmo with
  | none =>
    rw [WaitFor_durErr hpd] at h
    simp only [Prod.mk.injEq] at h
    obtain ⟨rfl, rfl⟩ := h
    refine ⟨⟨by simpa using hi.cur_lb, ?_, ?_, ?_, ?_⟩, ?_⟩
    · simpa [CursorOk] using hi.cur_ok
    · obtain ⟨ws, h1, h2, h3⟩ := hi.buf_ok
      exact ⟨ws, h1, by simpa using h2, by simpa using h3⟩
    · simpa using hi.ids_m
    · simpa using hi.ids_d
    · intro hz
      simp [ZeroEntry, Entry.IsZero] at hz
  | some d =>
    cases hrf : replayFind checks tst.matchIdx tst.entriesList 0 with
    | some pr =>
      obtain ⟨i, ent⟩ := pr
      rw [WaitFor_replay hpd hrf] at h
      simp only [Prod.mk.injEq] at h
      obtain ⟨rfl, rfl⟩ := h
      obtain ⟨ws, hwv, hwb, hwc, hwe⟩ := entriesList_inv hi
      obtain ⟨hmi, -, hlt, hget, -⟩ := replayFind_spec tst.entriesList 0 i ent hrf
      have hlen : tst.entriesList.length = ws.length := by
        rw [hwe, mkEntries_length]
      have hiw : i < ws.length := by
        rw [← hlen]
        simpa using hlt
      have hcnt : i < tst.cnt := by rw [hwc]; exact hiw
      have hident : ent.idx = i := by
        have hget0 : tst.entriesList.getD i ZeroEntry = ent := by
          simpa using hget
        rw [hwe, mkEntries_getD ws 0 i hiw] at hget0
        rw [← hget0]
        simp
      refine ⟨⟨?_, ?_, ?_, ?_, ?_⟩, ?_⟩
      · simp only
        omega
      · simp only [CursorOk]
        exact_mod_cast hcnt
      · exact ⟨ws, hwv, by simpa using hwb, by simpa using hwc⟩
      · intro m hm
        have := hi.ids_m m (by simpa using hm)
        simp only
        omega
      · intro dd hd
        have := hi.ids_d dd (by simpa using hd)
        simp only
        omega
      · intro hz
        constructor
        · rw [hident]
        · rw [hident]
          exact hmi
    | none =>
      have hT1 : SinkInv ({ tst with
          matchers := tst.matchers ++
            [{ checks := checks, cnt := 0, notify := true, id := tst.nextId }]
          nextId := tst.nextId + 1 } : Tester) := by
        refine ⟨by simpa using hi.cur_lb, ?_, ?_, ?_, ?_⟩
        · simpa [CursorOk] using hi.cur_ok
        · obtain ⟨ws, h1, h2, h3⟩ := hi.buf_ok
          exact ⟨ws, h1, by simpa using h2, by simpa using h3⟩
        · intro m hm
          simp only [List.mem_append, List.mem_singleton] at hm
          rcases hm with h1 | h1
          · have := hi.ids_m m h1
            simp only
            omega
          · rw [h1]
            simp
        · intro dd hd
          have := hi.ids_d dd (by simpa using hd)
          simp only
          omega
      have hBinv : SinkInv (blockedState tst checks future) := by
        unfold blockedState
        exact processWrites_inv future _ hT1 hfut
      obtain ⟨hcurB, hmonoB, new, hdel, hnew⟩ :=
        processWrites_cursor future ({ tst with
          matchers := tst.matchers ++
            [{ checks := checks, cnt := 0, notify := true, id := tst.nextId }]
          nextId := tst.nextId + 1 } : Tester) (by simpa [CursorOk] using hi.cur_ok)
      have hdelB : (blockedState tst checks future).deliveries =
          tst.deliveries ++ new := by
        unfold blockedState
        simpa using hdel
      have hskipold : ∀ dd ∈ tst.deliveries, dd.1 ≠ tst.nextId := by
        intro dd hd
        have := hi.ids_d dd hd
        omega
      cases hfd : firstDelivery tst.nextId
          (blockedState tst checks future).deliveries with
      | some ent =>
        rw [WaitFor_delivered hpd hrf hfd] at h
        simp only [Prod.mk.injEq] at h
        obtain ⟨rfl, rfl⟩ := h
        refine ⟨hBinv, ?_⟩
        intro hz
        rw [hdelB, firstDelivery_append_skip hskipold] at hfd
        obtain ⟨dd, hmem, hid, hval⟩ := firstDelivery_mem hfd
        obtain ⟨hlo, hhi⟩ := hnew dd hmem
        constructor
        · rw [← hval]
          unfold blockedState
          exact hhi
        · rw [← hval]
          have h1 : tst.matchIdx < (tst.cnt : Int) := hi.cur_ok
          have h2 : (tst.cnt : Int) ≤ (dd.2.idx : Int) := by
            simpa using hlo
          omega
      | none =>
        rw [WaitFor_timeout hpd hrf hfd] at h
        simp only [Prod.mk.injEq] at h
        obtain ⟨rfl, rfl⟩ := h
        refine ⟨⟨by simpa using hBinv.cur_lb, ?_, ?_, ?_, ?_⟩, ?_⟩
        · simpa [CursorOk] using hBinv.cur_ok
        · obtain ⟨ws, h1, h2, h3⟩ := hBinv.buf_ok
          exact ⟨ws, h1, by simpa using h2, by simpa using h3⟩
        · intro m hm
          simp only at hm
          obtain ⟨m0, hm0, hid⟩ := stopQueued_ids m hm
          rw [hid]
          simpa using hBinv.ids_m m0 hm0
        · intro dd hd
          simpa using hBinv.ids_d dd (by simpa using hd)
        · intro hz
          simp [ZeroEntry, Entry.IsZero] at hz

/-! ### Store and legacy-matcher lemmas -/

theorem Store.read_alloc_self (h : Store) (m : JMap) :
    (h.alloc m).1.read (h.alloc m).2 = m := by
  simp only [Store.alloc, Store.read, List.get?_eq_getElem?]
  rw [List.getElem?_concat_length]
  rfl

theorem Store.read_alloc_lt {h : Store} {r : Nat}
    (hr : r < h.cells.length) (m : JMap) :
    (h.alloc m).1.read r = h.read r := by
  simp only [Store.alloc, Store.read, List.get?_eq_getElem?]
  rw [List.getElem?_append_left hr]

theorem Store.read_write_ne {h : Store} {r r' : Nat} (hne : r ≠ r')
    (m : JMap) : (h.write r' m).read r = h.read r := by
  simp only [Store.write, Store.read, List.get?_eq_getElem?]
  rw [List.getElem?_set_ne (by omega)]

theorem Store.write_length (h : Store) (r : Nat) (m : JMap) :
    (h.write r m).cells.length = h.cells.length := by
  simp [Store.write]

theorem Store.alloc_length (h : Store) (m : JMap) :
    (h.alloc m).1.cells.length = h.cells.length + 1 := by
  simp [Store.alloc]

/-- The check loop of the legacy matcher: the verdict only depends on the
decision functions applied to the decoded map `dst`, the `dst` cell is
never written, and every map value a checker is handed equals `dst` — the
mutation components have no effect on any of it. -/
theorem runChecks_spec (raw : List Char) (idx : Nat) (dst : JMap) :
    ∀ (checks : List OChk) (h : Store) (dstRef : Nat),
    dstRef < h.cells.length → h.read dstRef = dst →
    (runChecks raw idx dstRef checks h).1 =
      (checks.all fun c =>
        (c.decide { raw := raw, m := dst, idx := idx }).isNone) ∧
    (runChecks raw idx dstRef checks h).2.1.read dstRef = dst ∧
    (∀ a ∈ (runChecks raw idx dstRef checks h).2.2, a = dst) := by
  intro checks
  induction checks with
  | nil =>
    intro h dstRef hlt hread
    simp [runChecks, hread]
  | cons chk rest ih =>
    intro h dstRef hlt hread
    have hself : (h.alloc dst).1.read (h.alloc dst).2 = dst :=
      Store.read_alloc_self h dst
    have hothers : (h.alloc dst).1.read dstRef = dst := by
      rw [Store.read_alloc_lt hlt, hread]
    have hne : dstRef ≠ (h.alloc dst).2 := by
      simp only [Store.alloc]
      omega
    cases hdec : chk.decide { raw := raw, m := dst, idx := idx } with
    | some err =>
      have hstep : runChecks raw idx dstRef (chk :: rest) h =
          (false, (h.alloc dst).1, [dst]) := by
        simp only [runChecks]
        rw [hread, hself]
        simp only [hdec]
      rw [hstep]
      refine ⟨by simp [hdec], hothers, ?_⟩
      intro a ha
      simpa using ha
    | none =>
      set H2 := (h.alloc dst).1.write (h.alloc dst).2 (chk.mutate dst)
        with hH2
      have hstep : runChecks raw idx dstRef (chk :: rest) h =
          ((runChecks raw idx dstRef rest H2).1,
            (runChecks raw idx dstRef rest H2).2.1,
            dst :: (runChecks raw idx dstRef rest H2).2.2) := by
        simp only [runChecks]
        rw [hread, hself]
        simp only [hdec]
      have hlt2 : dstRef < H2.cells.length := by
        rw [hH2, Store.write_length, Store.alloc_length]
        omega
      have hread2 : H2.read dstRef = dst := by
        rw [hH2, Store.read_write_ne hne, hothers]
      obtain ⟨ih1, ih2, ih3⟩ := ih H2 dstRef hlt2 hread2
      rw [hstep]
      refine ⟨by rw [ih1]; simp [hdec], ih2, ?_⟩
      intro a ha
      rcases List.mem_cons.mp ha with h1 | h1
      · exact h1
      · exact ih3 a h1

/-- Full characterisation of the legacy `Matcher.match`. -/
theorem tryMatch_cases (mcr : MatcherLegacy) (idx : Nat) (line : List Char) :
    (unmarshalMap (trimB line) = none →
      mcr.tryMatch idx line = (false, mcr, [Report.matcherLineError idx])) ∧
    ∀ dst, unmarshalMap (trimB line) = some dst →
      ((mcr.checks.all fun c =>
          (c.decide { raw := trimB line, m := dst, idx := idx }).isNone) = false →
        mcr.tryMatch idx line = (false, mcr, [])) ∧
      ((mcr.checks.all fun c =>
          (c.decide { raw := trimB line, m := dst, idx := idx }).isNone) = true →
        (mcr.done = true →
          mcr.tryMatch idx line = (true,
            { mcr with
              done := false
              ent := (if mcr.checks.isEmpty then ({} : Entry)
                else { raw := trimB line, m := dst, idx := idx }) }, [])) ∧
        (mcr.done = false → mcr.tryMatch idx line = (true, mcr, []))) := by
  constructor
  · intro hdst
    unfold MatcherLegacy.tryMatch
    rw [hdst]
  · intro dst hdst
    have hlt : (Store.alloc { cells := [] } dst).2 <
        (Store.alloc { cells := [] } dst).1.cells.length := by
      simp [Store.alloc]
    have hread : (Store.alloc { cells := [] } dst).1.read
        (Store.alloc { cells := [] } dst).2 = dst :=
      Store.read_alloc_self _ dst
    obtain ⟨r1, r2, r3⟩ := runChecks_spec (trimB line) idx dst mcr.checks
      (Store.alloc { cells := [] } dst).1 (Store.alloc { cells := [] } dst).2
      hlt hread
    constructor
    · intro hall
      unfold MatcherLegacy.tryMatch
      rw [hdst]
      simp only [r1, hall, Bool.false_eq_true, if_false]
    · intro hall
      constructor
      · intro hdone
        unfold MatcherLegacy.tryMatch
        rw [hdst]
        simp only [r1, hall, if_true, hdone, r2]
      · intro hdone
        unfold MatcherLegacy.tryMatch
        rw [hdst]
        simp only [r1, hall, if_true, hdone, Bool.false_eq_true, if_false]

/-- The maps handed to the checkers during `tryMatch` are all the original
decode of the line. -/
theorem tryMatchArgs_dst {mcr : MatcherLegacy} {idx : Nat} {line : List Char}
    {dst : JMap} (hdst : unmarshalMap (trimB line) = some dst) :
    ∀ a ∈ mcr.tryMatchArgs idx line, a = dst := by
  have hlt : (Store.alloc { cells := [] } dst).2 <
      (Store.alloc { cells := [] } dst).1.cells.length := by
    simp [Store.alloc]
  have hread : (Store.alloc { cells := [] } dst).1.read
      (Store.alloc { cells := [] } dst).2 = dst :=
    Store.read_alloc_self _ dst
  obtain ⟨-, -, r3⟩ := runChecks_spec (trimB line) idx dst mcr.checks
    (Store.alloc { cells := [] } dst).1 (Store.alloc { cells := [] } dst).2
    hlt hread
  intro a ha
  unfold MatcherLegacy.tryMatchArgs at ha
  rw [hdst] at ha
  exact r3 a ha

/-- A checker with its in-place mutation removed. -/
def stripMut (c : OChk) : OChk := { decide := c.decide, mutate := id }

theorem all_decide_stripMut (checks : List OChk) (ent : Entry) :
    ((checks.map stripMut).all fun c => (c.decide ent).isNone) =
      (checks.all fun c => (c.decide ent).isNone) := by
  rw [List.all_map]
  rfl

/-- The observable outcome of `tryMatch` does not depend on the mutation
components of the checkers. -/
theorem tryMatch_stripMut (mcr : MatcherLegacy) (idx : Nat)
    (line : List Char) :
    (({ mcr with checks := mcr.checks.map stripMut } :
        MatcherLegacy).tryMatch idx line).1 = (mcr.tryMatch idx line).1 ∧
    (({ mcr with checks := mcr.checks.map stripMut } :
        MatcherLegacy).tryMatch idx line).2.1.ent =
      (mcr.tryMatch idx line).2.1.ent ∧
    (({ mcr with checks := mcr.checks.map stripMut } :
        MatcherLegacy).tryMatch idx line).2.1.done =
      (mcr.tryMatch idx line).2.1.done ∧
    (({ mcr with checks := mcr.checks.map stripMut } :
        MatcherLegacy).tryMatch idx line).2.2 =
      (mcr.tryMatch idx line).2.2 := by
  set mcr2 : MatcherLegacy := { mcr with checks := mcr.checks.map stripMut }
    with hmcr2
  cases hdst : unmarshalMap (trimB line) with
  | none =>
    rw [(tryMatch_cases mcr idx line).1 hdst,
      (tryMatch_cases mcr2 idx line).1 hdst]
    exact ⟨rfl, rfl, rfl, rfl⟩
  | some dst =>
    have hall2 : (mcr2.checks.all fun c =>
        (c.decide { raw := trimB line, m := dst, idx := idx }).isNone) =
        (mcr.checks.all fun c =>
          (c.decide { raw := trimB line, m := dst, idx := idx }).isNone) := by
      rw [hmcr2]
      exact all_decide_stripMut mcr.checks _
    cases hall : (mcr.checks.all fun c =>
        (c.decide { raw := trimB line, m := dst, idx := idx }).isNone) with
    | false =>
      rw [((tryMatch_cases mcr idx line).2 dst hdst).1 hall,
        ((tryMatch_cases mcr2 idx line).2 dst hdst).1 (by rw [hall2, hall])]
      exact ⟨rfl, rfl, rfl, rfl⟩
    | true =>
      have hemp : mcr2.checks.isEmpty = mcr.checks.isEmpty := by
        rw [hmcr2]
        cases mcr.checks <;> rfl
      have hallm2 : (mcr2.checks.all fun c =>
          (c.decide { raw := trimB line, m := dst, idx := idx }).isNone) =
            true := by
        rw [hall2]
        exact hall
      cases hdone : mcr.done with
      | true =>
        have hdonem2 : mcr2.done = true := hdone
        rw [(((tryMatch_cases mcr idx line).2 dst hdst).2 hall).1 hdone,
          (((tryMatch_cases mcr2 idx line).2 dst hdst).2 hallm2).1 hdonem2]
        refine ⟨rfl, ?_, rfl, rfl⟩
        simp only [hemp, hmcr2]
      | false =>
        have hdonem2 : mcr2.done = false := hdone
        rw [(((tryMatch_cases mcr idx line).2 dst hdst).2 hall).2 hdone,
          (((tryMatch_cases mcr2 idx line).2 dst hdst).2 hallm2).2 hdonem2]
        exact ⟨rfl, by rw [hmcr2], rfl, rfl⟩

/-! ### Remaining helper lemmas for the claim theorems -/

theorem lineDecode_unmarshal {s : List Char} {m : JMap}
    (h : lineDecode s = some m) : unmarshalMap s = some m := by
  unfold lineDecode at h
  unfold unmarshalMap
  cases hp : pVal (2 * s.length + 8) s with
  | none =>
    rw [hp] at h
    exact h
  | some pr =>
    rw [hp] at h
    obtain ⟨v, r⟩ := pr
    cases v with
    | obj fields => exact h
    | null => exact Option.noConfusion h
    | str s0 => exact Option.noConfusion h
    | num l0 => exact Option.noConfusion h
    | bool b0 => exact Option.noConfusion h
    | arr es => exact Option.noConfusion h

theorem validLine_lineMap {w : List Char} (h : ValidLine w) :
    lineDecode w = some (lineMap w) := by
  obtain ⟨m, hm⟩ := validLine_decode h
  unfold lineMap
  rw [hm]
  rfl

theorem getD_mem_of_lt {α : Type} (l : List α) (d : α) :
    ∀ i, i < l.length → l.getD i d ∈ l := by
  induction l with
  | nil => intro i hi; simp at hi
  | cons a t ih =>
    intro i hi
    cases i with
    | zero =>
      rw [List.getD_cons_zero]
      exact List.mem_cons_self a t
    | succ i =>
      rw [List.getD_cons_succ]
      exact List.mem_cons_of_mem a (ih i (by simpa using hi))

theorem Write_matchers_length_le (tst : Tester) (p : List Char) :
    (tst.Write p).matchers.length ≤ tst.matchers.length := by
  cases hq : tst.matchers with
  | nil =>
    rw [Write_empty hq]
    show tst.matchers.length ≤ ([] : List Mcr).length
    rw [hq]
  | cons m rest =>
    cases hz : (m.MatchLine tst.cnt p).1.IsZero with
    | true =>
      rw [Write_head_fail hq hz]
      show ((m.MatchLine tst.cnt p).2.1 :: rest).length ≤ (m :: rest).length
      simp only [List.length_cons]
      omega
    | false =>
      rw [Write_head_succ hq hz]
      show rest.length ≤ (m :: rest).length
      simp only [List.length_cons]
      omega

theorem processWrites_matchers_length_le (ps : List (List Char)) :
    ∀ tst : Tester,
    (tst.processWrites ps).matchers.length ≤ tst.matchers.length := by
  induction ps with
  | nil => intro tst; exact le_refl _
  | cons p ps ih =>
    intro tst
    rw [processWrites_cons]
    exact le_trans (ih (tst.Write p)) (Write_matchers_length_le tst p)

/-- While the head matcher stays pending (the queue keeps its length), a
run of writes evaluates only the head's identity and changes neither the
queue, the deliveries nor the cursor. -/
theorem processWrites_head_pending (ps : List (List Char)) :
    ∀ (tst : Tester) (m : Mcr) (rest : List Mcr),
    tst.matchers = m :: rest →
    (tst.processWrites ps).matchers.length = tst.matchers.length →
    (tst.processWrites ps).matchers = m :: rest ∧
    (tst.processWrites ps).evals = tst.evals ++ List.replicate ps.length m.id ∧
    (tst.processWrites ps).deliveries = tst.deliveries ∧
    (tst.processWrites ps).matchIdx = tst.matchIdx := by
  induction ps with
  | nil =>
    intro tst m rest hq _
    exact ⟨hq, by simp [Tester.processWrites], rfl, rfl⟩
  | cons p ps ih =>
    intro tst m rest hq hlen
    rw [processWrites_cons] at hlen ⊢
    cases hz : (m.MatchLine tst.cnt p).1.IsZero with
    | false =>
      exfalso
      have hw := Write_head_succ hq hz
      have hlen2 : (tst.Write p).matchers.length = rest.length := by
        rw [hw]
      have hle := processWrites_matchers_length_le ps (tst.Write p)
      rw [hlen2] at hle
      rw [hq] at hlen
      simp only [List.length_cons] at hlen
      omega
    | true =>
      have hm' : (m.MatchLine tst.cnt p).2.1 = m := (MatchLine_isZero_true hz).1
      have hw := Write_head_fail hq hz
      have hq2 : (tst.Write p).matchers = m :: rest := by
        rw [hw, hm']
      have hlen2 : ((tst.Write p).processWrites ps).matchers.length =
          (tst.Write p).matchers.length := by
        rw [hq2, ← hq]
        exact hlen
      obtain ⟨h1, h2, h3, h4⟩ := ih (tst.Write p) m rest hq2 hlen2
      have hev : (tst.Write p).evals = tst.evals ++ [m.id] := by rw [hw]
      have hdel : (tst.Write p).deliveries = tst.deliveries := by rw [hw]
      have hmi : (tst.Write p).matchIdx = tst.matchIdx := by rw [hw]
      refine ⟨h1, ?_, ?_, ?_⟩
      · rw [h2, hev]
        simp [List.replicate_succ]
      · rw [h3, hdel]
      · rw [h4, hmi]

theorem firstDelivery_none_forall {id : Nat} {ds : List (Nat × Entry)}
    (h : firstDelivery id ds = none) : ∀ d ∈ ds, d.1 ≠ id := by
  intro d hd hid
  unfold firstDelivery at h
  cases hf : ds.filter (fun x => x.1 = id) with
  | nil =>
    have hmem : d ∈ ds.filter (fun x => x.1 = id) :=
      List.mem_filter.mpr ⟨hd, by simp [hid]⟩
    rw [hf] at hmem
    simp at hmem
  | cons a t =>
    rw [hf] at h
    simp at h

theorem firstDelivery_append_none {id : Nat} {ds1 ds2 : List (Nat × Entry)}
    (h1 : firstDelivery id ds1 = none) (h2 : ∀ d ∈ ds2, d.1 ≠ id) :
    firstDelivery id (ds1 ++ ds2) = none := by
  unfold firstDelivery at h1 ⊢
  rw [List.filter_append]
  cases hf : ds1.filter (fun d => d.1 = id) with
  | cons a t =>
    rw [hf] at h1
    simp at h1
  | nil =>
    have hnil : ds2.filter (fun d => d.1 = id) = [] := by
      rw [List.filter_eq_nil_iff]
      intro d hd
      simpa using h2 d hd
    rw [hnil]
    rfl

theorem MatchLine_sent_notify {mcr : Mcr} {idx : Nat} {line : List Char}
    (h : (mcr.MatchLine idx line).2.2.1 = true) : mcr.notify = true := by
  unfold Mcr.MatchLine at h
  split at h
  · simp at h
  · split at h
    · exact h
    · simp at h

theorem stopQueued_stopped (id : Nat) (ms : List Mcr) :
    ∀ m ∈ stopQueued id ms, m.id = id → m.notify = false := by
  intro m hm hid
  unfold stopQueued at hm
  obtain ⟨m0, hm0, heq⟩ := List.mem_map.mp hm
  by_cases h0 : m0.id = id
  · rw [if_pos h0] at heq
    rw [← heq]
    rfl
  · rw [if_neg h0] at heq
    rw [← heq] at hid
    exact absurd hid h0

/-- Once every queued matcher carrying identity `id` has its notify channel
stopped, no later run of writes can record a delivery for `id`. -/
theorem stopped_no_delivery (ps : List (List Char)) :
    ∀ (tst : Tester) (id : Nat),
    (∀ m ∈ tst.matchers, m.id = id → m.notify = false) →
    firstDelivery id tst.deliveries = none →
    firstDelivery id ((tst.processWrites ps).deliveries) = none ∧
    ∀ m ∈ (tst.processWrites ps).matchers, m.id = id → m.notify = false := by
  induction ps with
  | nil => intro tst id hstop hfd; exact ⟨hfd, hstop⟩
  | cons p ps ih =>
    intro tst id hstop hfd
    rw [processWrites_cons]
    have hstep : (∀ m ∈ (tst.Write p).matchers, m.id = id → m.notify = false) ∧
        firstDelivery id (tst.Write p).deliveries = none := by
      cases hq : tst.matchers with
      | nil =>
        rw [Write_empty hq]
        refine ⟨?_, hfd⟩
        intro mm hmm
        exact hstop mm hmm
      | cons m rest =>
        cases hz : (m.MatchLine tst.cnt p).1.IsZero with
        | true =>
          have hm' : (m.MatchLine tst.cnt p).2.1 = m :=
            (MatchLine_isZero_true hz).1
          rw [Write_head_fail hq hz]
          refine ⟨?_, hfd⟩
          intro mm hmm
          rw [hm'] at hmm
          exact hstop mm (by rw [hq]; exact hmm)
        | false =>
          rw [Write_head_succ hq hz]
          refine ⟨?_, ?_⟩
          · intro mm hmm
            exact hstop mm (by rw [hq]; exact List.mem_cons_of_mem m hmm)
          · cases hsent : (m.MatchLine tst.cnt p).2.2.1 with
            | false =>
              simp only [hsent]
              simpa using hfd
            | true =>
              have hnot : m.notify = true := MatchLine_sent_notify hsent
              by_cases hid : m.id = id
              · have hcontra := hstop m
                  (by rw [hq]; exact List.mem_cons_self m rest) hid
                rw [hnot] at hcontra
                simp at hcontra
              · have hmid : (m.MatchLine tst.cnt p).2.1.id = m.id :=
                  MatchLine_id.1
                have happ : firstDelivery id (tst.deliveries ++
                    [((m.MatchLine tst.cnt p).2.1.id,
                      (m.MatchLine tst.cnt p).1)]) = none := by
                  refine firstDelivery_append_none hfd ?_
                  intro d hd
                  rw [List.mem_singleton] at hd
                  subst hd
                  simpa [hmid] using hid
                simp only [hsent]
                simpa using happ
    exact ih (tst.Write p) id hstep.1 hstep.2

/-- When the buffer is a block of valid JSON lines followed by a segment
whose first significant character starts no JSON value (and is not a
closing bracket), the streaming decode aborts: `entries` reports the
decode error and returns the empty collection, dropping even the valid
prefix. -/
theorem entriesE_abort {good : List (List Char)}
    (hv : ∀ w ∈ good, ValidLine w) {suf : List Char} {c : Char}
    {cs : List Char} (hsw : skipWs suf = c :: cs)
    (hc1 : c ≠ '}') (hc2 : c ≠ ']')
    (hbad : ∀ f : Nat, pDisp f (c :: cs) = none)
    {tst : Tester} (hbuf : tst.buf = good.flatten ++ suf) :
    tst.entriesE = ([], true) := by
  have hne : ∀ w ∈ good, w ≠ [] := fun w hw => validLine_ne_nil (hv w hw)
  have hlef : good.length ≤ good.flatten.length := length_le_flatten hne
  unfold Tester.entriesE
  rw [hbuf]
  obtain ⟨wsp, hwsp, heq⟩ := entriesLoop_concat good
    ((good.flatten ++ suf).length + 1) [] suf 0 []
    (by simp) hv (by simp only [List.length_append]; omega)
  simp only [List.nil_append] at heq
  rw [heq]
  obtain ⟨g, hg⟩ : ∃ g,
      (good.flatten ++ suf).length + 1 - good.length = g + 1 := by
    refine ⟨(good.flatten ++ suf).length - good.length, ?_⟩
    simp only [List.length_append]
    omega
  rw [hg]
  have hskip : skipWs (wsp ++ suf) = c :: cs := by
    rw [skipWs_ws_chunk hwsp, hsw]
  have hcond : (c = '}' || c = ']') = false := by
    simp [hc1, hc2]
  obtain ⟨k, hk⟩ : ∃ k, 2 * (wsp ++ suf).length + 8 = k + 1 :=
    ⟨2 * (wsp ++ suf).length + 7, by omega⟩
  have hpv : pVal (2 * (wsp ++ suf).length + 8) (wsp ++ suf) = none := by
    rw [hk]
    unfold pVal
    rw [hskip]
    exact hbad k
  simp only [List.length_append] at hpv
  unfold entriesLoop
  simp [hskip, hcond, hpv]

/-! ### The claims -/

/-- C10: `Reset` zeroes the write counter, empties the buffer and empties
the pending-matcher queue, and leaves every other field of the sink — the
last-match cursor `matchIdx` and the configuration included —
unchanged; only `ResetLastMatch` resets the cursor, to -1, changing
nothing else. -/
theorem claim10_reset_frame (tst : Tester) :
    tst.Reset.cnt = 0 ∧ tst.Reset.buf = [] ∧ tst.Reset.matchers = [] ∧
    tst.Reset.matchIdx = tst.matchIdx ∧ tst.Reset.cfg = tst.cfg ∧
    tst.Reset.reports = tst.reports ∧
    tst.Reset.deliveries = tst.deliveries ∧
    tst.Reset.nextId = tst.nextId ∧
    tst.ResetLastMatch.matchIdx = -1 ∧
    tst.ResetLastMatch.cfg = tst.cfg ∧
    tst.ResetLastMatch.buf = tst.buf ∧
    tst.ResetLastMatch.cnt = tst.cnt ∧
    tst.ResetLastMatch.matchers = tst.matchers ∧
    tst.ResetLastMatch.reports = tst.reports :=
  ⟨rfl, rfl, rfl, rfl, rfl, rfl, rfl, rfl, rfl, rfl, rfl, rfl, rfl, rfl⟩

/-- C8: `WaitForAny` returns exactly the entry that `WaitFor` returns from
the same state, and its final state is `WaitFor`'s final state with the
last-match cursor reset by `ResetLastMatch` to the unset value -1. -/
theorem claim8_waitforany_resets_cursor (tst : Tester) (timeout : String)
    (checks : List Chk) (future : List (List Char)) :
    (tst.WaitForAny timeout checks future).1 =
      (tst.WaitFor timeout checks future).1 ∧
    (tst.WaitForAny timeout checks future).2 =
      ((tst.WaitFor timeout checks future).2).ResetLastMatch ∧
    (tst.WaitForAny timeout checks future).2.matchIdx = -1 :=
  ⟨rfl, rfl, rfl⟩

/-- C9: a matcher built with zero checkers matches everything:
`MatchEntry` returns true on every entry, and `MatchLine` returns the
decoded non-zero entry for every index and every line whose bytes (after
the trimming both `json.Unmarshal` and `MatchLine` perform) decode as a
JSON object. -/
theorem claim9_zero_checkers (k idx : Nat) (ent : Entry) (line : List Char)
    (mp : JMap) (hdec : lineDecode (trimB line) = some mp) :
    ((newMcr [] k).MatchEntry ent).1 = true ∧
    ((newMcr [] k).MatchLine idx line).1 =
      { raw := trimB line, m := mp, idx := idx } ∧
    ((newMcr [] k).MatchLine idx line).1.IsZero = false := by
  have hun : unmarshalMap (trimB line) = some mp := lineDecode_unmarshal hdec
  have hall : ((newMcr [] k).checks.all fun chk =>
      (chk { raw := trimB line, m := mp, idx := idx }).isNone) = true := by
    simp [newMcr]
  have hml := ((MatchLine_cases (newMcr [] k) idx line).1 mp hun).1 hall
  refine ⟨by simp [Mcr.MatchEntry, newMcr], by rw [hml], ?_⟩
  rw [hml]
  have hne : trimB line ≠ [] := unmarshal_trim_ne_nil hun
  simp [Entry.IsZero, List.isEmpty_iff, hne]

/-- C9 witness: the zero-checker matcher at identity 3 matches the line
consisting of the empty JSON object. -/
theorem claim9_zero_checkers_witness :
    lineDecode (trimB (("\x7b\x7d").data)) = some [] ∧
    ((newMcr [] 3).MatchEntry ZeroEntry).1 = true ∧
    ((newMcr [] 3).MatchLine 9 (("\x7b\x7d").data)).1.IsZero = false := by
  have h := claim9_zero_checkers 3 9 ZeroEntry (("\x7b\x7d").data) []
    (by rfl)
  exact ⟨by rfl, h.1, h.2.2⟩

/-- C4 counterexample: the legacy `match` is not "true iff the line
decodes as a JSON object and all checkers pass".  On the line `null`,
which is valid JSON but not a JSON object (`lineDecode` refuses it),
`json.Unmarshal` into a map succeeds (zeroing the map), so a matcher with
zero checkers returns true.  Moreover the "first successful call records
the decoded entry tagged with idx" part also fails: the armed success on
a checker-less matcher records the zero entry, not an entry tagged with
index 7 — both for `null` and for the genuine object line `\x7b\x7d`. -/
theorem claim4_counterexample :
    ((({ checks := [] } : MatcherLegacy).tryMatch 7 (("null").data)).1
      = true) ∧
    lineDecode (("null").data) = none ∧
    ((({ checks := [] } : MatcherLegacy).tryMatch 7
      (("null").data)).2.1.ent.IsZero = true) ∧
    ((({ checks := [] } : MatcherLegacy).tryMatch 7
      (("null").data)).2.1.done = false) ∧
    ((({ checks := [] } : MatcherLegacy).tryMatch 7 (("\x7b\x7d").data)).1
      = true) ∧
    ((({ checks := [] } : MatcherLegacy).tryMatch 7
      (("\x7b\x7d").data)).2.1.ent.IsZero = true) :=
  ⟨rfl, rfl, rfl, rfl, rfl, rfl⟩

/-- C4, amended: `match(idx, line)` returns true iff the trimmed line
`json.Unmarshal`s into a map — i.e. it is a JSON object or JSON `null` —
and every registered checker returns nil for the decoded entry.  The
first such success arms the capture: when at least one checker is
registered the captured entry is the decoded entry tagged with `idx`
(with zero checkers it is the zero entry), and any later successful call
leaves the matcher, its captured entry included, unchanged. -/
theorem claim4_match_iff_and_capture (mcr : MatcherLegacy) (idx : Nat)
    (line : List Char) :
    ((mcr.tryMatch idx line).1 = true ↔
      ∃ dst, unmarshalMap (trimB line) = some dst ∧
        (mcr.checks.all fun c =>
          (c.decide { raw := trimB line, m := dst, idx := idx }).isNone)
          = true) ∧
    (∀ dst, unmarshalMap (trimB line) = some dst →
      (mcr.checks.all fun c =>
        (c.decide { raw := trimB line, m := dst, idx := idx }).isNone)
        = true →
      (mcr.done = true → mcr.checks ≠ [] →
        (mcr.tryMatch idx line).2.1.ent =
          { raw := trimB line, m := dst, idx := idx } ∧
        (mcr.tryMatch idx line).2.1.done = false) ∧
      (mcr.done = false → (mcr.tryMatch idx line).2.1 = mcr)) := by
  constructor
  · constructor
    · intro h
      cases hdst : unmarshalMap (trimB line) with
      | none =>
        rw [(tryMatch_cases mcr idx line).1 hdst] at h
        simp at h
      | some dst =>
        cases hall : (mcr.checks.all fun c =>
            (c.decide { raw := trimB line, m := dst, idx := idx }).isNone)
            with
        | false =>
          rw [((tryMatch_cases mcr idx line).2 dst hdst).1 hall] at h
          simp at h
        | true => exact ⟨dst, rfl, hall⟩
    · rintro ⟨dst, hdst, hall⟩
      cases hdone : mcr.done with
      | true => rw [(((tryMatch_cases mcr idx line).2 dst hdst).2 hall).1 hdone]
      | false => rw [(((tryMatch_cases mcr idx line).2 dst hdst).2 hall).2 hdone]
  · intro dst hdst hall
    constructor
    · intro hdone hne
      rw [(((tryMatch_cases mcr idx line).2 dst hdst).2 hall).1 hdone]
      have hemp : mcr.checks.isEmpty = false := by
        cases hc : mcr.checks with
        | nil => exact absurd hc hne
        | cons a t => rfl
      constructor
      · simp [hemp]
      · rfl
    · intro hdone
      rw [(((tryMatch_cases mcr idx line).2 dst hdst).2 hall).2 hdone]

/-- C4 witness: a one-checker matcher on a matching object line captures
the decoded entry tagged with the call's index. -/
theorem claim4_match_iff_and_capture_witness :
    ((({ checks := [{ decide := CheckStr ("a") ("x"), mutate := id }] } :
        MatcherLegacy).tryMatch 5
      (("\x7b\"a\": \"x\"\x7d").data)).2.1.ent.idx = 5) ∧
    ((({ checks := [{ decide := CheckStr ("a") ("x"), mutate := id }] } :
        MatcherLegacy).tryMatch 5 (("\x7b\"a\": \"x\"\x7d").data)).1
      = true) := by
  have h := claim4_match_iff_and_capture
    ({ checks := [{ decide := CheckStr ("a") ("x"), mutate := id }] } :
      MatcherLegacy) 5 (("\x7b\"a\": \"x\"\x7d").data)
  have hcap := (h.2 [("a", JVal.str "x")] (by rfl) (by rfl)).1 rfl (by simp)
  constructor
  · rw [hcap.1]
  · exact h.1.mpr ⟨[("a", JVal.str "x")], by rfl, by rfl⟩

/-- C6: during the legacy matcher's line evaluation every checker sees an
independent clone of the decoded map (the ghost argument trace holds
exactly the decode for every checker), the captured entry stores the
original pre-clone decode, and the observable outcome — verdict and
captured entry — is unchanged when every checker's in-place mutation is
stripped. -/
theorem claim6_clone_per_checker (mcr : MatcherLegacy) (idx : Nat)
    (line : List Char) (dst : JMap)
    (hdst : unmarshalMap (trimB line) = some dst) :
    (∀ a ∈ mcr.tryMatchArgs idx line, a = dst) ∧
    ((mcr.checks.all fun c =>
        (c.decide { raw := trimB line, m := dst, idx := idx }).isNone)
        = true →
      mcr.done = true → mcr.checks.isEmpty = false →
      (mcr.tryMatch idx line).2.1.ent =
        { raw := trimB line, m := dst, idx := idx }) ∧
    ((({ mcr with checks := mcr.checks.map stripMut } :
        MatcherLegacy).tryMatch idx line).1 = (mcr.tryMatch idx line).1 ∧
      (({ mcr with checks := mcr.checks.map stripMut } :
        MatcherLegacy).tryMatch idx line).2.1.ent =
        (mcr.tryMatch idx line).2.1.ent) := by
  refine ⟨tryMatchArgs_dst hdst, ?_, (tryMatch_stripMut mcr idx line).1,
    (tryMatch_stripMut mcr idx line).2.1⟩
  intro hall hdone hemp
  rw [(((tryMatch_cases mcr idx line).2 dst hdst).2 hall).1 hdone]
  simp [hemp]

/-- C6 witness: a checker that mutates its argument map in place does not
leak into the captured entry, which keeps the original decode. -/
theorem claim6_clone_per_checker_witness :
    ((({ checks := [{ decide := fun _ => none
                      mutate := fun mp =>
                        insertF mp ("edited") (JVal.bool true) }] } :
      MatcherLegacy).tryMatch 4 (("\x7b\"a\": \"x\"\x7d").data)).2.1.ent =
      { raw := trimB (("\x7b\"a\": \"x\"\x7d").data)
        m := [("a", JVal.str "x")]
        idx := 4 }) :=
  (claim6_clone_per_checker
    ({ checks := [{ decide := fun _ => none
                    mutate := fun mp =>
                      insertF mp ("edited") (JVal.bool true) }] } :
      MatcherLegacy) 4 (("\x7b\"a\": \"x\"\x7d").data)
    [("a", JVal.str "x")] (by rfl)).2.1 (by rfl) rfl rfl

/-- C2: with a non-empty pending queue, `Write` evaluates only the head
matcher (the ghost evaluation log gains exactly the head's identity); on
a successful match the head is popped and the cursor is set to this
write's index; on a failed match queue, cursor and deliveries are
unchanged; and over any run of writes during which the head stays
pending (the queue keeps its length) the tail is untouched, only the
head's identity is ever evaluated, and no delivery or cursor movement
happens — a later-queued matcher is never evaluated or satisfied. -/
theorem claim2_head_only (tst : Tester) (m : Mcr) (rest : List Mcr)
    (p : List Char) (hq : tst.matchers = m :: rest) :
    (tst.Write p).evals = tst.evals ++ [m.id] ∧
    ((m.MatchLine tst.cnt p).1.IsZero = false →
      (tst.Write p).matchers = rest ∧
      (tst.Write p).matchIdx = (tst.cnt : Int)) ∧
    ((m.MatchLine tst.cnt p).1.IsZero = true →
      (tst.Write p).matchers = m :: rest ∧
      (tst.Write p).matchIdx = tst.matchIdx ∧
      (tst.Write p).deliveries = tst.deliveries) ∧
    (∀ ps : List (List Char),
      (tst.processWrites ps).matchers.length = tst.matchers.length →
      (tst.processWrites ps).matchers = m :: rest ∧
      (tst.processWrites ps).evals =
        tst.evals ++ List.replicate ps.length m.id ∧
      (tst.processWrites ps).deliveries = tst.deliveries ∧
      (tst.processWrites ps).matchIdx = tst.matchIdx) := by
  refine ⟨?_, ?_, ?_, ?_⟩
  · cases hz : (m.MatchLine tst.cnt p).1.IsZero with
    | true => rw [Write_head_fail hq hz]
    | false => rw [Write_head_succ hq hz]
  · intro hz
    rw [Write_head_succ hq hz]
    exact ⟨rfl, rfl⟩
  · intro hz
    have hm' := (MatchLine_isZero_true hz).1
    rw [Write_head_fail hq hz]
    exact ⟨by rw [hm'], rfl, rfl⟩
  · intro ps hlen
    exact processWrites_head_pending ps tst m rest hq hlen

/-- C2 witness: two junk writes against a two-matcher queue evaluate only
the head matcher (identity 5), twice, and move nothing. -/
theorem claim2_head_only_witness :
    (({ matchers := [{ checks := [CheckStr ("a") ("x")], id := 5 },
        { checks := [], id := 6 }] } : Tester).processWrites
      [("junk").data, ("junk").data]).evals =
      [] ++ List.replicate 2 5 :=
  ((claim2_head_only
    ({ matchers := [{ checks := [CheckStr ("a") ("x")], id := 5 },
        { checks := [], id := 6 }] } : Tester)
    ({ checks := [CheckStr ("a") ("x")], id := 5 } : Mcr)
    [{ checks := [], id := 6 }] (("junk").data) rfl).2.2.2
    [("junk").data, ("junk").data] (by rfl)).2.1

/-- C1: writing any sequence of single valid JSON log lines to a fresh
sink makes `Entries()` return (without error) exactly one entry per
write, in write order: the i-th entry carries index i, the trimmed bytes
of the i-th write, and that line's JSON decode as its field map. -/
theorem claim1_entries_in_write_order (ws : List (List Char))
    (hv : ∀ w ∈ ws, ValidLine w) :
    (newTester.processWrites ws).entriesE.2 = false ∧
    (newTester.processWrites ws).entriesList = mkEntries ws 0 ∧
    (newTester.processWrites ws).entriesList.length = ws.length ∧
    ∀ i, i < ws.length →
      ((newTester.processWrites ws).entriesList.getD i ZeroEntry).idx = i ∧
      ((newTester.processWrites ws).entriesList.getD i ZeroEntry).raw =
        trimB (ws.getD i []) ∧
      lineDecode (ws.getD i []) =
        some (((newTester.processWrites ws).entriesList.getD i
          ZeroEntry).m) := by
  have hbuf : (newTester.processWrites ws).buf = ws.flatten := by
    have h := (processWrites_core ws newTester).1
    simpa [newTester] using h
  have hE := entriesE_of_valid hv hbuf
  have hL : (newTester.processWrites ws).entriesList = mkEntries ws 0 := by
    unfold Tester.entriesList
    rw [hE]
  refine ⟨by rw [hE], hL, by rw [hL, mkEntries_length], ?_⟩
  intro i hi
  have hg := mkEntries_getD ws 0 i hi
  rw [hL, hg]
  have hvi : ValidLine (ws.getD i []) :=
    hv (ws.getD i []) (getD_mem_of_lt ws [] i hi)
  refine ⟨by simp, rfl, ?_⟩
  simpa using validLine_lineMap hvi

/-- C1 witness: two concrete valid object lines produce two entries; the
second has index 1. -/
theorem claim1_entries_in_write_order_witness :
    (Tester.entriesList (newTester.processWrites
      [("\x7b\"a\": \"x\"\x7d").data, ("\x7b\"b\": \"y\"\x7d").data])
        |>.getD 1 ZeroEntry).idx = 1 :=
  ((claim1_entries_in_write_order
    [("\x7b\"a\": \"x\"\x7d").data, ("\x7b\"b\": \"y\"\x7d").data]
    (by decide)).2.2.2 1 (by decide)).1

/-- C5 counterexample: an undecodable write is not harmless to
`Entries()`.  After writing a valid object line, then `junk`, then
another valid object line, the streaming decode aborts at the junk:
`Entries()` reports the failure and returns the empty collection — the
valid lines, the one written before the junk included, are not
returned. -/
theorem claim5_counterexample :
    ValidLine (("\x7b\"a\": \"x\"\x7d").data) ∧
    ValidLine (("\x7b\"b\": \"y\"\x7d").data) ∧
    (((newTester.Write (("\x7b\"a\": \"x\"\x7d").data)).Write
        (("junk").data)).Write
        (("\x7b\"b\": \"y\"\x7d").data)).entriesE = ([], true) :=
  ⟨by decide, by decide, by rfl⟩

/-- C5, amended: a write whose bytes do not `json.Unmarshal` satisfies no
matcher for that line only — the pending queue, the cursor and the
deliveries are unchanged and the failure is reported — and a subsequent
valid line is still matched by the still-pending head matcher.  But
`Entries()` does not skip the bad line: whenever the buffer holds an
undecodable segment after any block of valid lines, the decode aborts,
the error is reported, and `Entries()` returns the empty collection, the
valid lines included. -/
theorem claim5_invalid_write (tst : Tester) (m : Mcr) (rest : List Mcr)
    (p : List Char) (hq : tst.matchers = m :: rest)
    (hbad : unmarshalMap (trimB p) = none) :
    ((tst.Write p).matchers = m :: rest ∧
      (tst.Write p).matchIdx = tst.matchIdx ∧
      (tst.Write p).deliveries = tst.deliveries ∧
      (tst.Write p).reports =
        tst.reports ++ [Report.matcherLineError tst.cnt]) ∧
    (∀ q : List Char, (m.MatchLine (tst.cnt + 1) q).1.IsZero = false →
      ((tst.Write p).Write q).matchers = rest ∧
      ((tst.Write p).Write q).matchIdx = ((tst.cnt + 1 : Nat) : Int)) ∧
    (∀ (good : List (List Char)) (suf : List Char) (c : Char)
        (cs : List Char) (tst2 : Tester),
      (∀ w ∈ good, ValidLine w) → skipWs suf = c :: cs →
      c ≠ '}' → c ≠ ']' → (∀ f : Nat, pDisp f (c :: cs) = none) →
      tst2.buf = good.flatten ++ suf →
      tst2.entriesE = ([], true) ∧ tst2.entriesList = []) := by
  have hz : (m.MatchLine tst.cnt p).1.IsZero = true := by
    rw [(MatchLine_cases m tst.cnt p).2 hbad]
    rfl
  have hreps : (m.MatchLine tst.cnt p).2.2.2 =
      [Report.matcherLineError tst.cnt] := by
    rw [(MatchLine_cases m tst.cnt p).2 hbad]
  have hm' : (m.MatchLine tst.cnt p).2.1 = m := (MatchLine_isZero_true hz).1
  have hw := Write_head_fail hq hz
  have hq2 : (tst.Write p).matchers = m :: rest := by rw [hw, hm']
  refine ⟨⟨hq2, by rw [hw], by rw [hw], by rw [hw, hreps]⟩, ?_, ?_⟩
  · intro q hzq
    have hcnt : (tst.Write p).cnt = tst.cnt + 1 := Write_cnt tst p
    have hz2 : (m.MatchLine (tst.Write p).cnt q).1.IsZero = false := by
      rw [hcnt]
      exact hzq
    have hw2 := Write_head_succ hq2 hz2
    constructor
    · rw [hw2]
    · rw [hw2, hcnt]
  · intro good suf c cs tst2 hgood hsw hc1 hc2 hpd hbuf2
    have habort := entriesE_abort hgood hsw hc1 hc2 hpd hbuf2
    refine ⟨habort, ?_⟩
    unfold Tester.entriesList
    rw [habort]

/-- C5 witness: with one pending matcher for `b = y`, a junk write is
reported and matches nothing, the next valid line still satisfies the
matcher (cursor moves to index 1), and a buffer of a valid line followed
by junk makes `Entries()` return the empty collection with an error. -/
theorem claim5_invalid_write_witness :
    ((({ matchers := [{ checks := [CheckStr ("b") ("y")] }] } :
        Tester).Write (("junk").data)).reports =
      [] ++ [Report.matcherLineError 0]) ∧
    (((({ matchers := [{ checks := [CheckStr ("b") ("y")] }] } :
        Tester).Write (("junk").data)).Write
          (("\x7b\"b\": \"y\"\x7d").data)).matchIdx =
      ((0 + 1 : Nat) : Int)) ∧
    ({ buf := ("\x7b\"b\": \"y\"\x7d junk").data } : Tester).entriesE =
      ([], true) := by
  have h := claim5_invalid_write
    ({ matchers := [{ checks := [CheckStr ("b") ("y")] }] } : Tester)
    ({ checks := [CheckStr ("b") ("y")] } : Mcr) [] (("junk").data)
    rfl (by rfl)
  refine ⟨h.1.2.2.2, (h.2.1 (("\x7b\"b\": \"y\"\x7d").data) (by rfl)).2, ?_⟩
  exact (h.2.2 [("\x7b\"b\": \"y\"\x7d").data] ((" junk").data) 'j'
    (("unk").data)
    ({ buf := ("\x7b\"b\": \"y\"\x7d junk").data } : Tester)
    (by decide) (by rfl) (by decide) (by decide)
    (fun f => by cases f with | zero => rfl | succ g => rfl)
    (by rfl)).1

/-- C3: two sequential `WaitFor` calls on the same sink (with any valid
writes in between, and no cursor reset) that both return a non-zero
entry return strictly increasing indices: the second entry's index is
strictly greater than the first's. -/
theorem claim3_strictly_increasing (tst : Tester) (hinv : SinkInv tst)
    (tmo1 tmo2 : String) (checks1 checks2 : List Chk)
    (fut1 mids fut2 : List (List Char))
    (hf1 : ∀ w ∈ fut1, ValidLine w) (hmid : ∀ w ∈ mids, ValidLine w)
    (hf2 : ∀ w ∈ fut2, ValidLine w) (e1 e2 : Entry) (t1 t2 : Tester)
    (h1 : tst.WaitFor tmo1 checks1 fut1 = (e1, t1))
    (h2 : (t1.processWrites mids).WaitFor tmo2 checks2 fut2 = (e2, t2))
    (hz1 : e1.IsZero = false) (hz2 : e2.IsZero = false) :
    e1.idx < e2.idx := by
  obtain ⟨hi1, hb1⟩ := WaitFor_main hinv hf1 h1
  obtain ⟨hle1, -⟩ := hb1 hz1
  have hi2 : SinkInv (t1.processWrites mids) :=
    processWrites_inv mids t1 hi1 hmid
  have hcur : t1.matchIdx ≤ (t1.processWrites mids).matchIdx :=
    (processWrites_cursor mids t1 hi1.cur_ok).2.1
  obtain ⟨-, hb2⟩ := WaitFor_main hi2 hf2 h2
  obtain ⟨-, hgt2⟩ := hb2 hz2
  have hlt : (e1.idx : Int) < (e2.idx : Int) :=
    lt_of_le_of_lt (le_trans hle1 hcur) hgt2
  exact_mod_cast hlt

set_option maxRecDepth 8192 in
/-- C3 witness: on a fresh sink, a wait satisfied by the line `a = x`
returns index 0 and a second wait satisfied by the line `b = y` returns
index 1. -/
theorem claim3_strictly_increasing_witness :
    ((newTester.WaitFor ("1s") [CheckStr ("a") ("x")]
      [("\x7b\"a\": \"x\"\x7d").data]).1).idx <
    ((((newTester.WaitFor ("1s") [CheckStr ("a") ("x")]
      [("\x7b\"a\": \"x\"\x7d").data]).2).processWrites []).WaitFor ("1s")
      [CheckStr ("b") ("y")] [("\x7b\"b\": \"y\"\x7d").data]).1.idx :=
  claim3_strictly_increasing newTester newTester_inv ("1s") ("1s")
    [CheckStr ("a") ("x")] [CheckStr ("b") ("y")]
    [("\x7b\"a\": \"x\"\x7d").data] [] [("\x7b\"b\": \"y\"\x7d").data]
    (by decide) (by decide) (by decide) _ _ _ _ rfl rfl
    (by rfl) (by rfl)

/-- C7: when `WaitFor` times out — the replay over captured entries finds
nothing and no delivery reaches the registered matcher's channel — it
returns the zero entry (IsZero true), reports the timeout together with
a dump of all captured log lines, and deactivates the registered
matcher's notify channel so that no later run of writes can deliver an
entry to the abandoned channel. -/
theorem claim7_timeout_path (tst : Tester) (tmo : String)
    (checks : List Chk) (future : List (List Char)) (d : Nat)
    (hd : ParseDuration tmo = some d)
    (hrf : replayFind checks tst.matchIdx tst.entriesList 0 = none)
    (hfd : firstDelivery tst.nextId
      (blockedState tst checks future).deliveries = none) :
    (tst.WaitFor tmo checks future).1 = ZeroEntry ∧
    (tst.WaitFor tmo checks future).1.IsZero = true ∧
    Report.timeoutReached tmo ∈ (tst.WaitFor tmo checks future).2.reports ∧
    Report.summary
      ((blockedState tst checks future).entriesList.map Entry.raw) ∈
      (tst.WaitFor tmo checks future).2.reports ∧
    (∀ m ∈ (tst.WaitFor tmo checks future).2.matchers,
      m.id = tst.nextId → m.notify = false) ∧
    (∀ ps : List (List Char), firstDelivery tst.nextId
      (((tst.WaitFor tmo checks future).2.processWrites ps).deliveries) =
      none) := by
  rw [WaitFor_timeout hd hrf hfd]
  refine ⟨rfl, rfl, by simp, by simp, ?_, ?_⟩
  · intro m hm hid
    exact stopQueued_stopped tst.nextId
      (blockedState tst checks future).matchers m hm hid
  · intro ps
    refine (stopped_no_delivery ps _ tst.nextId ?_ ?_).1
    · intro m hm hid
      exact stopQueued_stopped tst.nextId
        (blockedState tst checks future).matchers m hm hid
    · exact hfd

set_option maxRecDepth 8192 in
/-- C7 witness: waiting for `a = x` while only `b = y` arrives times out,
reports the timeout, and a later matching write delivers nothing to the
abandoned matcher (identity 0). -/
theorem claim7_timeout_path_witness :
    Report.timeoutReached ("1s") ∈
      (newTester.WaitFor ("1s") [CheckStr ("a") ("x")]
        [("\x7b\"b\": \"y\"\x7d").data]).2.reports ∧
    firstDelivery 0
      (((newTester.WaitFor ("1s") [CheckStr ("a") ("x")]
        [("\x7b\"b\": \"y\"\x7d").data]).2.processWrites
          [("\x7b\"a\": \"x\"\x7d").data]).deliveries) = none := by
  have h := claim7_timeout_path newTester ("1s") [CheckStr ("a") ("x")]
    [("\x7b\"b\": \"y\"\x7d").data] 1000000000 (by rfl) (by rfl) (by rfl)
  exact ⟨h.2.2.1, h.2.2.2.2.2 [("\x7b\"a\": \"x\"\x7d").data]⟩

end Logkit
